import Mathlib

/-!
# ParallelRecursiveMerge: a shallow embedding

Embedding of `merging::ParallelRecursiveMerge`
(`devoir/exercice3/src/include/ParallelRecursiveMerge.hpp`).

* A container (`std::vector`) is a `List α`; a random access iterator into it is
  an `Int` offset from its `begin()`.  Iterator differences are `Int`
  (`ptrdiff_t`), and the `static_cast< size_t >` of the size test is the
  residue modulo `2 ^ 64`.
* The routine never reads the output container, so a call is described by the
  list of writes `(position, value)` it performs, in program order; `store`
  replays the writes on the output container of the caller.
* The two tasks handed to the `tbb::task_group` are run one after the other
  (left task first); `tg.wait()` joins them.
* A call has three possible outcomes: it returns (`done`), it performs an
  operation that C++ leaves undefined (`undefined`: dereferencing an iterator
  outside its container, calling a standard algorithm on an invalid range,
  writing outside the output container), or the recursion is deeper than the
  supplied `fuel` (`timeout`).
-/

namespace merging

/-- Outcome of running a routine of the embedding. -/
inductive Outcome (σ : Type) where
  | done (s : σ) : Outcome σ
  | undefined : Outcome σ
  | timeout : Outcome σ
deriving DecidableEq

/-- Value read through the iterator `it` of the container `buf` (`*it`); `none`
when the iterator does not point to an element of the container. -/
def deref {α : Type} (buf : List α) (it : Int) : Option α :=
  if 0 ≤ it then buf[it.toNat]? else none

/-- The iterator pair `[first, last)` is a valid range of the container `buf`. -/
def validRange {α : Type} (buf : List α) (first last : Int) : Bool :=
  decide (0 ≤ first) && decide (first ≤ last) && decide (last ≤ (buf.length : Int))

/-- Elements of the valid range `[first, last)` of `buf`, in order. -/
def slice {α : Type} (buf : List α) (first last : Int) : List α :=
  (buf.drop first.toNat).take (last - first).toNat

/-- Loop of `std::merge` (C++ standard library, stable two-pointer merge):
while both inputs are non-empty, the head of the second input is taken when
`comp(*first2, *first1)`, the head of the first otherwise; the remainders are
then copied.  `n` bounds the number of iterations. -/
def mergeLoop {α : Type} (comp : α → α → Bool) : Nat → List α → List α → List α
  | 0, xs, ys => xs ++ ys
  | _ + 1, [], ys => ys
  | _ + 1, xs, [] => xs
  | n + 1, x :: xs, y :: ys =>
    if comp y x then y :: mergeLoop comp n (x :: xs) ys
    else x :: mergeLoop comp n xs (y :: ys)

/-- Sequence produced by `std::merge` on two input sequences. -/
def stdMerge {α : Type} (comp : α → α → Bool) (xs ys : List α) : List α :=
  mergeLoop comp (xs.length + ys.length) xs ys

/-- Loop of `std::lower_bound` (C++ standard library, binary search): `first`
is the current iterator, `len` the number of elements still to inspect, `n`
bounds the number of iterations. -/
def lowerBoundLoop {α : Type} (comp : α → α → Bool) (buf : List α) (val : α) :
    Nat → Int → Int → Option Int
  | 0, first, _ => some first
  | n + 1, first, len =>
    if 0 < len then
      let half := len / 2
      let middle := first + half
      match deref buf middle with
      | none => none
      | some v =>
        if comp v val then lowerBoundLoop comp buf val n (middle + 1) (len - half - 1)
        else lowerBoundLoop comp buf val n first half
    else some first

/-- Model of `std::lower_bound(first, last, val, comp)`; `none` when
`[first, last)` is not a valid range of the container. -/
def lower_bound {α : Type} (comp : α → α → Bool) (buf : List α) (first last : Int)
    (val : α) : Option Int :=
  if validRange buf first last then
    lowerBoundLoop comp buf val (last - first).toNat first (last - first)
  else none

/-- Writes performed by a sequential copy of `xs` to the positions
`result, result + 1, ...`. -/
def writesFrom {α : Type} (result : Int) : List α → List (Int × α)
  | [] => []
  | x :: xs => (result, x) :: writesFrom (result + 1) xs

/-- Model of `ParallelRecursiveMerge::strategyBTasking`: the writes performed on
the output container by the call on `[first1, last1)` of `c1` and
`[first2, last2)` of `c2` with output position `result`.  `cutoff` is the
`size_t` argument (any natural number is accepted here) and `fuel` bounds the
depth of the recursion. -/
def strategyBTasking {α : Type} (comp : α → α → Bool) (cutoff : Nat) :
    Nat → List α → Int → Int → List α → Int → Int → Int → Outcome (List (Int × α))
  | 0, _, _, _, _, _, _, _ => Outcome.timeout
  | fuel + 1, c1, first1, last1, c2, first2, last2, result =>
    let size1 := last1 - first1
    let size2 := last2 - first2
    if (size1 + size2) % 2 ^ 64 < (cutoff : Int) then
      if validRange c1 first1 last1 && validRange c2 first2 last2 then
        Outcome.done
          (writesFrom result (stdMerge comp (slice c1 first1 last1) (slice c2 first2 last2)))
      else Outcome.undefined
    else if size1 < size2 then
      strategyBTasking comp cutoff fuel c2 first2 last2 c1 first1 last1 result
    else
      let middle1 := first1 + size1.tdiv 2 + size1.tmod 2
      match deref c1 middle1 with
      | none => Outcome.undefined
      | some pivot =>
        match lower_bound comp c2 first2 last2 pivot with
        | none => Outcome.undefined
        | some middle2 =>
          let middle3 := result + (middle1 - first1) + (middle2 - first2)
          match strategyBTasking comp cutoff fuel c1 first1 middle1 c2 first2 middle2 result with
          | Outcome.done w1 =>
            match strategyBTasking comp cutoff fuel c1 (middle1 + 1) last1 c2 middle2 last2
                (middle3 + 1) with
            | Outcome.done w2 => Outcome.done ((middle3, pivot) :: (w1 ++ w2))
            | Outcome.undefined => Outcome.undefined
            | Outcome.timeout => Outcome.timeout
          | Outcome.undefined => Outcome.undefined
          | Outcome.timeout => Outcome.timeout

/-- Model of `ParallelRecursiveMerge::strategyB`: it only forwards to
`strategyBTasking`. -/
def strategyB {α : Type} (comp : α → α → Bool) (cutoff : Nat) (fuel : Nat)
    (c1 : List α) (first1 last1 : Int) (c2 : List α) (first2 last2 : Int) (result : Int) :
    Outcome (List (Int × α)) :=
  strategyBTasking comp cutoff fuel c1 first1 last1 c2 first2 last2 result

/-- Model of the general `ParallelRecursiveMerge::apply`: the writes of
`strategyB` together with the returned iterator
`result + (last1 - first1) + (last2 - first2)`. -/
def apply {α : Type} (comp : α → α → Bool) (cutoff : Nat) (fuel : Nat)
    (c1 : List α) (first1 last1 : Int) (c2 : List α) (first2 last2 : Int) (result : Int) :
    Outcome (List (Int × α) × Int) :=
  match strategyB comp cutoff fuel c1 first1 last1 c2 first2 last2 result with
  | Outcome.done ws => Outcome.done (ws, result + (last1 - first1) + (last2 - first2))
  | Outcome.undefined => Outcome.undefined
  | Outcome.timeout => Outcome.timeout

/-- One write `*pos = v` on the output container; `none` when `pos` is not the
position of one of its elements. -/
def writeAt {α : Type} (out : List α) (w : Int × α) : Option (List α) :=
  if 0 ≤ w.1 ∧ w.1 < (out.length : Int) then some (out.set w.1.toNat w.2) else none

/-- Replays a list of writes, in order, on the output container. -/
def store {α : Type} (out : List α) : List (Int × α) → Option (List α)
  | [] => some out
  | w :: ws =>
    match writeAt out w with
    | none => none
    | some out1 => store out1 ws

/-- The call `apply(L.begin(), L.end(), R.begin(), R.end(), out.begin() + result,
comp, cutoff)` on whole containers, as in the benchmark driver: final contents
of the output container and the offset of the returned iterator. -/
def mergeVectors {α : Type} (comp : α → α → Bool) (cutoff : Nat) (fuel : Nat)
    (L R out : List α) (result : Nat) : Outcome (List α × Int) :=
  match apply comp cutoff fuel L 0 L.length R 0 R.length result with
  | Outcome.done (ws, e) =>
    match store out ws with
    | some o => Outcome.done (o, e)
    | none => Outcome.undefined
  | Outcome.undefined => Outcome.undefined
  | Outcome.timeout => Outcome.timeout

/-- Model of `std::is_sorted(first, last, comp)`: no element is `comp`-less than
its predecessor. -/
def is_sorted {α : Type} (comp : α → α → Bool) : List α → Bool
  | [] => true
  | [_] => true
  | x :: y :: rest => !comp y x && is_sorted comp (y :: rest)

/-- The comparator `std::less` on `int`. -/
def intLess (a b : Int) : Bool := decide (a < b)

/-- The C++ named requirement for the comparator: `comp` is a strict weak
ordering (irreflexive, transitive, with transitive incomparability). -/
structure StrictWeakOrder {α : Type} (comp : α → α → Bool) : Prop where
  irrefl : ∀ a, comp a a = false
  trans : ∀ a b c, comp a b = true → comp b c = true → comp a c = true
  incomp_trans : ∀ a b c, comp a b = false → comp b a = false →
    comp b c = false → comp c b = false → comp a c = false ∧ comp c a = false

/-- The sequence is sorted under `comp`: no element is `comp`-less than an
element that comes before it. -/
def Sorted {α : Type} (comp : α → α → Bool) (l : List α) : Prop :=
  l.Pairwise (fun a b => comp b a = false)

/-- Equivalent elements are identical: `comp` is a strict linear order. -/
def Linear {α : Type} (comp : α → α → Bool) : Prop :=
  ∀ a b, comp a b = false → comp b a = false → a = b

/-- Shape of the result of the recursive driver on the input sequences `X` and
`Y`: `MergeShape comp X Y M` holds when `M` is obtained from `X` and `Y` by
finitely many transitions of `strategyBTasking`, namely the sequential merge
(`fallback`), the exchange of the operands (`swap`), and the split around a
pivot `x` of the left operand whose rank `k` in the right operand is the one
`std::lower_bound` returns (`split`). -/
inductive MergeShape {α : Type} (comp : α → α → Bool) : List α → List α → List α → Prop where
  | fallback (X Y : List α) : MergeShape comp X Y (stdMerge comp X Y)
  | swap {X Y M : List α} : MergeShape comp Y X M → MergeShape comp X Y M
  | split {X1 X2 Y M1 M2 : List α} (x : α) (k : Nat) :
      lower_bound comp Y 0 (Y.length : Int) x = some (k : Int) →
      MergeShape comp X1 (Y.take k) M1 → MergeShape comp X2 (Y.drop k) M2 →
      MergeShape comp (X1 ++ x :: X2) Y (M1 ++ x :: M2)

/-- Comparator on tagged elements that looks at the value only, so that two
elements with the same value and different tags are equivalent but
distinguishable. -/
def byValue {α : Type} (comp : α → α → Bool) (p q : α × Bool) : Bool := comp p.1 q.1

/-- The sequence `l` with every element tagged by `b` (`false`: it comes from the
left input, `true`: from the right input). -/
def tagged {α : Type} (b : Bool) (l : List α) : List (α × Bool) := l.map (fun a => (a, b))

/-- Stability of a merged sequence of tagged elements: no element of the right
input comes before an element of the left input that is equivalent to it. -/
def Stable {α : Type} (comp : α → α → Bool) (M : List (α × Bool)) : Prop :=
  M.Pairwise (fun p q => p.2 = true → q.2 = false →
    ¬ (comp p.1 q.1 = false ∧ comp q.1 p.1 = false))

/-- Model of `std::iota(first, last, start)` on a container of `n` elements. -/
def iota (n : Nat) (start : Int) : List Int := (List.range n).map (fun (i : Nat) => start + (i : Int))

/-- The left input of the benchmark driver: `128 * 1024` ascending values from 19. -/
def lhs : List Int := iota (128 * 1024) 19

/-- The right input of the benchmark driver: `lhs.size() + 211` ascending values
from 5. -/
def rhs : List Int := iota (lhs.length + 211) 5

end merging

namespace merging

/-- Model of the overload of `ParallelRecursiveMerge::apply` without comparator:
it builds `std::less< const value_type& >()`, the order `<` of the element
type, and calls the general `apply`. -/
def applyLess {α : Type} [LT α] [DecidableRel (fun a b : α => a < b)] (cutoff : Nat)
    (fuel : Nat) (c1 : List α) (first1 last1 : Int) (c2 : List α) (first2 last2 : Int)
    (result : Int) : Outcome (List (Int × α) × Int) :=
  apply (fun a b => decide (a < b)) cutoff fuel c1 first1 last1 c2 first2 last2 result

end merging

/-! ## The compile-time list exercises (`devoir/exercice1`)

A template parameter pack `T... list` is a `List α`; the enumerators of type
`std::size_t` are natural numbers and the enumerator `Yes` of type `int` is an
integer. -/

namespace exercice1

/-- Model of `Count<T, val, list...>::value`. -/
def Count {α : Type} [DecidableEq α] (val : α) : List α → Nat
  | [] => 0
  | first :: rest => if first = val then 1 + Count val rest else 0

/-- Model of `Found_N_Length_Subset<T, n, list...>::Yes`.  For a list of one
element the specialisation `<T, n, first>` is the most specialised one and is
selected. -/
def Found_N_Length_Subset {α : Type} [DecidableEq α] (n : Nat) : List α → Int
  | [] => if n = 0 then 1 else 0
  | [_] => if n = 1 then 1 else 0
  | first :: second :: rest =>
    if Count first (first :: second :: rest) ≥ n then 1
    else Found_N_Length_Subset n (second :: rest)

/-- Model of `Longest_Subset<T, first, rest...>::current_run` (the member exists
for non-empty lists only). -/
def Longest_Subset.current_run {α : Type} [DecidableEq α] : α → List α → Nat
  | _, [] => 1
  | first, second :: rest =>
    if first = second then 1 + Longest_Subset.current_run second rest else 1

/-- Model of `Longest_Subset<T, list...>::value`. -/
def Longest_Subset.value {α : Type} [DecidableEq α] : List α → Nat
  | [] => 0
  | [_] => 1
  | first :: second :: rest =>
    let current_run := Longest_Subset.current_run first (second :: rest)
    let max_run_rest := Longest_Subset.value (second :: rest)
    if current_run > max_run_rest then current_run else max_run_rest

/-- Length of the maximal block of equal adjacent elements that starts at
position `i` of `l` (0 when `i` is not a position of `l`). -/
def runLengthAt {α : Type} [DecidableEq α] (l : List α) (i : Nat) : Nat :=
  match l.drop i with
  | [] => 0
  | a :: t => 1 + (t.takeWhile (fun b => decide (b = a))).length

/-- Length of the longest run of consecutive equal elements of `l`: the maximum
over all positions of the length of the block starting there. -/
def longestRun {α : Type} [DecidableEq α] (l : List α) : Nat :=
  ((List.range l.length).map (runLengthAt l)).foldr max 0

/-- The list contains a run of at least `n` consecutive equal elements: `n`
copies of some value occur at adjacent positions. -/
def HasRun {α : Type} (n : Nat) (l : List α) : Prop :=
  ∃ a, List.replicate n a <:+: l

end exercice1

namespace merging

/-- Model of `ParallelRecursiveMerge::strategyA` (the variant based on parallel
sections): the writes performed on the output container, with the same
conventions as `strategyBTasking`. -/
def strategyA {α : Type} (comp : α → α → Bool) (cutoff : Nat) :
    Nat → List α → Int → Int → List α → Int → Int → Int → Outcome (List (Int × α))
  | 0, _, _, _, _, _, _, _ => Outcome.timeout
  | fuel + 1, c1, first1, last1, c2, first2, last2, result =>
    let size1 := last1 - first1
    let size2 := last2 - first2
    if (size1 + size2) % 2 ^ 64 < (cutoff : Int) then
      if validRange c1 first1 last1 && validRange c2 first2 last2 then
        Outcome.done
          (writesFrom result (stdMerge comp (slice c1 first1 last1) (slice c2 first2 last2)))
      else Outcome.undefined
    else if size1 < size2 then
      strategyA comp cutoff fuel c2 first2 last2 c1 first1 last1 result
    else
      let middle1 := first1 + size1.tdiv 2 + size1.tmod 2
      match deref c1 middle1 with
      | none => Outcome.undefined
      | some pivot =>
        match lower_bound comp c2 first2 last2 pivot with
        | none => Outcome.undefined
        | some middle2 =>
          let middle3 := result + (middle1 - first1) + (middle2 - first2)
          match strategyA comp cutoff fuel c1 first1 middle1 c2 first2 middle2 result with
          | Outcome.done w1 =>
            match strategyA comp cutoff fuel c1 (middle1 + 1) last1 c2 middle2 last2
                (middle3 + 1) with
            | Outcome.done w2 => Outcome.done ((middle3, pivot) :: (w1 ++ w2))
            | Outcome.undefined => Outcome.undefined
            | Outcome.timeout => Outcome.timeout
          | Outcome.undefined => Outcome.undefined
          | Outcome.timeout => Outcome.timeout

end merging

/-! ## The reducers of the Pearson command (`devoir/exercice4/src/pearson.cpp`)

The arrays `const double* x, y` are functions from indices to values, and the
`double` values are taken in exact arithmetic: they are rational numbers.  A
`tbb::blocked_range< size_t >` is a pair `begin ≤ end` of natural numbers. -/

namespace pearson

/-- Model of the class `AverageReducer` (the member `n` is never set nor read). -/
structure AverageReducer where
  x : Nat → ℚ
  y : Nat → ℚ
  sum_x : ℚ
  sum_y : ℚ

/-- The constructor `AverageReducer(x, y)`. -/
def AverageReducer.new (x y : Nat → ℚ) : AverageReducer :=
  { x := x, y := y, sum_x := 0, sum_y := 0 }

/-- The splitting constructor `AverageReducer(other, tbb::split)`. -/
def AverageReducer.split (other : AverageReducer) : AverageReducer :=
  { x := other.x, y := other.y, sum_x := 0, sum_y := 0 }

/-- The loop of `AverageReducer::operator()`: `k` iterations from index `i`. -/
def AverageReducer.loop (self : AverageReducer) : Nat → Nat → AverageReducer
  | _, 0 => self
  | i, k + 1 =>
    AverageReducer.loop
      { self with sum_x := self.sum_x + self.x i, sum_y := self.sum_y + self.y i } (i + 1) k

/-- Model of `AverageReducer::operator()` on the range `[rbegin, rend)`. -/
def AverageReducer.call (self : AverageReducer) (rbegin rend : Nat) : AverageReducer :=
  self.loop rbegin (rend - rbegin)

/-- Model of `AverageReducer::join`. -/
def AverageReducer.join (self other : AverageReducer) : AverageReducer :=
  { self with sum_x := self.sum_x + other.sum_x, sum_y := self.sum_y + other.sum_y }

/-- Model of the class `PearsonReducer`. -/
structure PearsonReducer where
  x : Nat → ℚ
  y : Nat → ℚ
  avg_x : ℚ
  avg_y : ℚ
  tot_xx : ℚ
  tot_xy : ℚ
  tot_yy : ℚ

/-- The constructor `PearsonReducer(x, y, avg_x, avg_y)`. -/
def PearsonReducer.new (x y : Nat → ℚ) (avg_x avg_y : ℚ) : PearsonReducer :=
  { x := x, y := y, avg_x := avg_x, avg_y := avg_y, tot_xx := 0, tot_xy := 0, tot_yy := 0 }

/-- The splitting constructor `PearsonReducer(other, tbb::split)`. -/
def PearsonReducer.split (other : PearsonReducer) : PearsonReducer :=
  { x := other.x, y := other.y, avg_x := other.avg_x, avg_y := other.avg_y,
    tot_xx := 0, tot_xy := 0, tot_yy := 0 }

/-- The loop of `PearsonReducer::operator()`: `k` iterations from index `i`. -/
def PearsonReducer.loop (self : PearsonReducer) : Nat → Nat → PearsonReducer
  | _, 0 => self
  | i, k + 1 =>
    let dx := self.x i - self.avg_x
    let dy := self.y i - self.avg_y
    PearsonReducer.loop
      { self with tot_xx := self.tot_xx + dx * dx, tot_xy := self.tot_xy + dx * dy,
                  tot_yy := self.tot_yy + dy * dy } (i + 1) k

/-- Model of `PearsonReducer::operator()` on the range `[rbegin, rend)`. -/
def PearsonReducer.call (self : PearsonReducer) (rbegin rend : Nat) : PearsonReducer :=
  self.loop rbegin (rend - rbegin)

/-- Model of `PearsonReducer::join`. -/
def PearsonReducer.join (self other : PearsonReducer) : PearsonReducer :=
  { self with tot_xx := self.tot_xx + other.tot_xx, tot_xy := self.tot_xy + other.tot_xy,
              tot_yy := self.tot_yy + other.tot_yy }

/-- A way for `tbb::parallel_reduce` to cut a range into consecutive sub-ranges
and to combine the results: a sub-range of `len` indices handled by one call of
`operator()` (`leaf`), two adjacent parts handled one after the other by the
same body (`seq`), or two adjacent parts of which the right one is handled by a
freshly split body that is joined afterwards (`fork`). -/
inductive Schedule where
  | leaf (len : Nat) : Schedule
  | seq (left right : Schedule) : Schedule
  | fork (left right : Schedule) : Schedule

/-- Number of indices covered by a schedule. -/
def Schedule.size : Schedule → Nat
  | Schedule.leaf len => len
  | Schedule.seq l r => l.size + r.size
  | Schedule.fork l r => l.size + r.size

/-- The schedule that cuts a range into consecutive sub-ranges of the given
lengths, the first one handled by the body itself and each of the others by a
freshly split body that is joined afterwards. -/
def Schedule.ofParts : List Nat → Schedule
  | [] => Schedule.leaf 0
  | [len] => Schedule.leaf len
  | len :: next :: rest => Schedule.fork (Schedule.leaf len) (Schedule.ofParts (next :: rest))

/-- Run of `AverageReducer` along a schedule, on the range starting at `start`. -/
def AverageReducer.reduce (body : AverageReducer) : Schedule → Nat → AverageReducer
  | Schedule.leaf len, start => body.call start (start + len)
  | Schedule.seq l r, start =>
    AverageReducer.reduce (AverageReducer.reduce body l start) r (start + l.size)
  | Schedule.fork l r, start =>
    (AverageReducer.reduce body l start).join
      (AverageReducer.reduce (AverageReducer.split body) r (start + l.size))

/-- Run of `PearsonReducer` along a schedule, on the range starting at `start`. -/
def PearsonReducer.reduce (body : PearsonReducer) : Schedule → Nat → PearsonReducer
  | Schedule.leaf len, start => body.call start (start + len)
  | Schedule.seq l r, start =>
    PearsonReducer.reduce (PearsonReducer.reduce body l start) r (start + l.size)
  | Schedule.fork l r, start =>
    (PearsonReducer.reduce body l start).join
      (PearsonReducer.reduce (PearsonReducer.split body) r (start + l.size))

end pearson

namespace merging

section order
variable {α : Type} {comp : α → α → Bool}

theorem StrictWeakOrder.asymm (h : StrictWeakOrder comp) {a b : α}
    (hab : comp a b = true) : comp b a = false := by
  cases hba : comp b a with
  | false => rfl
  | true =>
    have := h.trans a b a hab hba
    rw [h.irrefl a] at this
    exact absurd this (by decide)

theorem StrictWeakOrder.neg_trans (h : StrictWeakOrder comp) {a b c : α}
    (hab : comp a b = false) (hbc : comp b c = false) : comp a c = false := by
  cases hac : comp a c with
  | false => rfl
  | true =>
    have hba : comp b a = false := by
      cases hba : comp b a with
      | false => rfl
      | true => rw [h.trans b a c hba hac] at hbc; exact hbc
    have hcb : comp c b = false := by
      cases hcb : comp c b with
      | false => rfl
      | true => rw [h.trans a c b hac hcb] at hab; exact hab
    have := (h.incomp_trans a b c hab hba hbc hcb).1
    rw [hac] at this
    exact this

theorem mergeLoop_eq_merge (comp : α → α → Bool) :
    ∀ (n : Nat) (xs ys : List α), xs.length + ys.length ≤ n →
      mergeLoop comp n xs ys = List.merge xs ys (fun a b => !comp b a) := by
  intro n
  induction n with
  | zero =>
    intro xs ys h
    have hx : xs = [] := List.eq_nil_of_length_eq_zero (by omega)
    have hy : ys = [] := List.eq_nil_of_length_eq_zero (by omega)
    subst hx; subst hy
    simp [mergeLoop]
  | succ n ih =>
    intro xs ys h
    cases xs with
    | nil => simp [mergeLoop]
    | cons x xs =>
      cases ys with
      | nil => simp [mergeLoop]
      | cons y ys =>
        simp only [List.length_cons] at h
        rw [mergeLoop, List.cons_merge_cons]
        cases hc : comp y x with
        | true =>
          simp only [if_true, Bool.not_true, Bool.false_eq_true, if_false]
          rw [ih (x :: xs) ys (by simp only [List.length_cons]; omega)]
        | false =>
          simp only [Bool.false_eq_true, if_false, Bool.not_false, if_true]
          rw [ih xs (y :: ys) (by simp only [List.length_cons]; omega)]

theorem stdMerge_eq_merge (comp : α → α → Bool) (xs ys : List α) :
    stdMerge comp xs ys = List.merge xs ys (fun a b => !comp b a) :=
  mergeLoop_eq_merge comp _ xs ys (Nat.le_refl _)

theorem stdMerge_perm (comp : α → α → Bool) (xs ys : List α) :
    (stdMerge comp xs ys).Perm (xs ++ ys) := by
  rw [stdMerge_eq_merge]
  exact List.merge_perm_append _

theorem stdMerge_sorted (h : StrictWeakOrder comp) {xs ys : List α}
    (hx : Sorted comp xs) (hy : Sorted comp ys) : Sorted comp (stdMerge comp xs ys) := by
  rw [stdMerge_eq_merge]
  have key := @List.sorted_merge α (fun a b => !comp b a)
    (fun a b c hab hbc => by
      simp only [Bool.not_eq_true'] at hab hbc ⊢
      exact h.neg_trans hbc hab)
    (fun a b => by
      cases hba : comp b a with
      | false => simp [hba]
      | true => simp [h.asymm hba]) xs ys
    (hx.imp (by intro a b hab; simp [hab]))
    (hy.imp (by intro a b hab; simp [hab]))
  exact key.imp (by intro a b hab; simpa using hab)

theorem stdMerge_nil_right (comp : α → α → Bool) (xs : List α) : stdMerge comp xs [] = xs := by
  rw [stdMerge_eq_merge]; simp

theorem stdMerge_nil_left (comp : α → α → Bool) (ys : List α) : stdMerge comp [] ys = ys := by
  rw [stdMerge_eq_merge]; simp

end order
section ranges
variable {α : Type}

theorem validRange_iff (buf : List α) (a b : Int) :
    validRange buf a b = true ↔ 0 ≤ a ∧ a ≤ b ∧ b ≤ (buf.length : Int) := by
  simp [validRange, and_assoc]

theorem slice_length (buf : List α) (a b : Int) (ha : 0 ≤ a) (hab : a ≤ b)
    (hb : b ≤ (buf.length : Int)) : ((slice buf a b).length : Int) = b - a := by
  simp only [slice, List.length_take, List.length_drop]
  omega

theorem slice_append (buf : List α) (a b c : Int) (ha : 0 ≤ a) (hab : a ≤ b) (hbc : b ≤ c) :
    slice buf a c = slice buf a b ++ slice buf b c := by
  obtain ⟨a, rfl⟩ := Int.eq_ofNat_of_zero_le ha
  obtain ⟨b, rfl⟩ := Int.eq_ofNat_of_zero_le (le_trans ha hab)
  obtain ⟨c, rfl⟩ := Int.eq_ofNat_of_zero_le (le_trans (le_trans ha hab) hbc)
  have h1 : ((c : Int) - a).toNat = (b - a) + (c - b) := by omega
  have h2 : ((b : Int) - a).toNat = b - a := by omega
  have h3 : ((c : Int) - b).toNat = c - b := by omega
  have h4 : a + (b - a) = b := by omega
  simp only [slice, Int.toNat_ofNat, h1, h2, h3, List.take_add, List.drop_drop, h4]

theorem slice_empty (buf : List α) (a : Int) : slice buf a a = [] := by
  simp [slice]

theorem slice_singleton (buf : List α) (a : Int) (v : α) (h : deref buf a = some v) :
    slice buf a (a + 1) = [v] := by
  unfold deref at h
  split at h
  · rename_i ha
    have h1 : (a + 1 - a).toNat = 1 := by omega
    rw [slice, h1]
    rw [List.getElem?_eq_some] at h
    obtain ⟨hlt, hv⟩ := h
    rw [List.drop_eq_getElem_cons hlt, hv]
    simp
  · exact absurd h (by simp)

theorem deref_isSome (buf : List α) (i : Int) (h0 : 0 ≤ i) (h1 : i < (buf.length : Int)) :
    ∃ v, deref buf i = some v := by
  have hlt : i.toNat < buf.length := by omega
  exact ⟨buf[i.toNat], by simp [deref, h0, List.getElem?_eq_getElem hlt]⟩

theorem slice_whole (buf : List α) : slice buf 0 (buf.length : Int) = buf := by
  simp [slice]

theorem deref_slice (buf : List α) (a b i : Int) (ha : 0 ≤ a) (hi : 0 ≤ i) (hib : a + i < b) :
    deref (slice buf a b) i = deref buf (a + i) := by
  have h0 : 0 ≤ a + i := by omega
  simp only [deref, hi, h0, if_true, slice]
  have h1 : i.toNat < (b - a).toNat := by omega
  rw [List.getElem?_take_of_lt h1, List.getElem?_drop]
  congr 1
  omega

end ranges
section lowerBound
variable {α : Type}

theorem lowerBoundLoop_bounds (comp : α → α → Bool) (buf : List α) (x : α) :
    ∀ (n : Nat) (a len : Int), 0 ≤ a → 0 ≤ len → len ≤ (n : Int) →
      a + len ≤ (buf.length : Int) →
      ∃ k, lowerBoundLoop comp buf x n a len = some k ∧ a ≤ k ∧ k ≤ a + len := by
  intro n
  induction n with
  | zero =>
    intro a len ha hlen hn hb
    exact ⟨a, rfl, le_refl _, by omega⟩
  | succ n ih =>
    intro a len ha hlen hn hb
    unfold lowerBoundLoop
    by_cases hpos : 0 < len
    · simp only [hpos, if_true]
      obtain ⟨v, hv⟩ := deref_isSome buf (a + len / 2) (by omega) (by omega)
      simp only [hv]
      cases comp v x with
      | true =>
        obtain ⟨k, hk, h1, h2⟩ := ih (a + len / 2 + 1) (len - len / 2 - 1)
          (by omega) (by omega) (by push_cast at hn; omega) (by omega)
        exact ⟨k, by simpa using hk, by omega, by omega⟩
      | false =>
        obtain ⟨k, hk, h1, h2⟩ := ih a (len / 2)
          (by omega) (by omega) (by push_cast at hn; omega) (by omega)
        exact ⟨k, by simpa using hk, by omega, by omega⟩
    · simp only [hpos, if_false]
      exact ⟨a, rfl, le_refl _, by omega⟩

theorem lowerBoundLoop_partition (comp : α → α → Bool) (buf : List α) (x : α) :
    ∀ (n : Nat) (a len p : Int), 0 ≤ a → 0 ≤ p → p ≤ len → len ≤ (n : Int) →
      a + len ≤ (buf.length : Int) →
      (∀ i, a ≤ i → i < a + p → ∃ v, deref buf i = some v ∧ comp v x = true) →
      (∀ i, a + p ≤ i → i < a + len → ∃ v, deref buf i = some v ∧ comp v x = false) →
      lowerBoundLoop comp buf x n a len = some (a + p) := by
  intro n
  induction n with
  | zero =>
    intro a len p ha hp hpl hn hb hlo hhi
    have : p = 0 := by omega
    simp [lowerBoundLoop, this]
  | succ n ih =>
    intro a len p ha hp hpl hn hb hlo hhi
    unfold lowerBoundLoop
    by_cases hpos : 0 < len
    · simp only [hpos, if_true]
      by_cases hmid : a + len / 2 < a + p
      · obtain ⟨v, hv, hc⟩ := hlo (a + len / 2) (by omega) hmid
        simp only [hv, hc, if_true]
        have := ih (a + len / 2 + 1) (len - len / 2 - 1) (p - len / 2 - 1)
          (by omega) (by omega) (by omega) (by push_cast at hn; omega) (by omega)
          (fun i h1 h2 => hlo i (by omega) (by omega))
          (fun i h1 h2 => hhi i (by omega) (by omega))
        rw [this]
        congr 1
        omega
      · obtain ⟨v, hv, hc⟩ := hhi (a + len / 2) (by omega) (by omega)
        simp only [hv, hc, Bool.false_eq_true, if_false]
        exact ih a (len / 2) p ha hp (by omega) (by push_cast at hn; omega) (by omega)
          (fun i h1 h2 => hlo i h1 h2)
          (fun i h1 h2 => hhi i h1 (by omega))
    · simp only [hpos, if_false]
      have : p = 0 := by omega
      simp [this]

theorem lowerBoundLoop_slice (comp : α → α → Bool) (buf : List α) (x : α) (f l : Int)
    (hf : 0 ≤ f) :
    ∀ (n : Nat) (a len : Int), 0 ≤ a → 0 ≤ len → f + a + len ≤ l →
      lowerBoundLoop comp buf x n (f + a) len =
        (lowerBoundLoop comp (slice buf f l) x n a len).map (fun k => f + k) := by
  intro n
  induction n with
  | zero => intro a len ha hlen hl; simp [lowerBoundLoop]
  | succ n ih =>
    intro a len ha hlen hl
    unfold lowerBoundLoop
    by_cases hpos : 0 < len
    · simp only [hpos, if_true]
      have hd : deref (slice buf f l) (a + len / 2) = deref buf (f + a + len / 2) := by
        rw [deref_slice buf f l (a + len / 2) hf (by omega) (by omega)]
        congr 1
        omega
      rw [hd]
      cases deref buf (f + a + len / 2) with
      | none => simp
      | some v =>
        simp only
        cases comp v x with
        | true =>
          simp only [if_true]
          have := ih (a + len / 2 + 1) (len - len / 2 - 1) (by omega) (by omega) (by omega)
          rw [← this]
          congr 1
          omega
        | false =>
          simp only [Bool.false_eq_true, if_false]
          exact ih a (len / 2) ha (by omega) (by omega)
    · simp only [hpos, if_false, Option.map_some']

theorem lower_bound_slice (comp : α → α → Bool) (buf : List α) (x : α) (f l : Int)
    (hv : validRange buf f l = true) :
    lower_bound comp buf f l x =
      (lower_bound comp (slice buf f l) 0 ((slice buf f l).length : Int) x).map
        (fun k => f + k) := by
  obtain ⟨hf, hfl, hl⟩ := (validRange_iff buf f l).1 hv
  have hlen := slice_length buf f l hf hfl hl
  have hv2 : validRange (slice buf f l) 0 ((slice buf f l).length : Int) = true := by
    rw [validRange_iff]; omega
  unfold lower_bound
  rw [hv, hv2]
  simp only [if_true]
  have := lowerBoundLoop_slice comp buf x f l hf (l - f).toNat 0 (l - f) (le_refl _)
    (by omega) (by omega)
  rw [hlen]
  simpa using this

end lowerBound
section shape
variable {α : Type} {comp : α → α → Bool}

theorem take_length_append (A B : List α) : (A ++ B).take A.length = A := by simp

theorem drop_length_append (A B : List α) : (A ++ B).drop A.length = B := by simp

theorem deref_append_left (A B : List α) (i : Int) (h0 : 0 ≤ i) (h1 : i < (A.length : Int)) :
    ∃ v, deref (A ++ B) i = some v ∧ v ∈ A := by
  have hlt : i.toNat < A.length := by omega
  refine ⟨A[i.toNat], ?_, List.getElem_mem _⟩
  simp [deref, h0, List.getElem?_append_left hlt, List.getElem?_eq_getElem hlt]

theorem deref_append_right (A B : List α) (i : Int) (h0 : (A.length : Int) ≤ i)
    (h1 : i < (A.length : Int) + B.length) :
    ∃ v, deref (A ++ B) i = some v ∧ v ∈ B := by
  have hlt : i.toNat - A.length < B.length := by omega
  have hle : A.length ≤ i.toNat := by omega
  have hi : 0 ≤ i := by omega
  refine ⟨B[i.toNat - A.length], ?_, List.getElem_mem _⟩
  simp [deref, hi, List.getElem?_append_right hle, List.getElem?_eq_getElem hlt]

/-- Binary search on a sequence that is partitioned by `comp · x` returns the
partition point. -/
theorem lower_bound_append (comp : α → α → Bool) (x : α) (A B : List α)
    (hA : ∀ a ∈ A, comp a x = true) (hB : ∀ b ∈ B, comp b x = false) :
    lower_bound comp (A ++ B) 0 ((A ++ B).length : Int) x = some (A.length : Int) := by
  have hv : validRange (A ++ B) 0 ((A ++ B).length : Int) = true := by
    rw [validRange_iff]; omega
  unfold lower_bound
  rw [hv]
  simp only [if_true]
  have hlen : ((A ++ B).length : Int) = A.length + B.length := by simp
  have := lowerBoundLoop_partition comp (A ++ B) x (((A ++ B).length : Int) - 0).toNat 0
    ((A ++ B).length : Int) (A.length : Int) (le_refl _) (by omega) (by omega) (by omega)
    (by omega)
    (fun i h1 h2 => by
      obtain ⟨v, hv, hm⟩ := deref_append_left A B i h1 (by omega)
      exact ⟨v, hv, hA v hm⟩)
    (fun i h1 h2 => by
      obtain ⟨v, hv, hm⟩ := deref_append_right A B i (by omega) (by omega)
      exact ⟨v, hv, hB v hm⟩)
  simpa using this

/-- On a sorted sequence `std::lower_bound` returns the rank of `x`: the
elements before it are `comp`-less than `x`, the others are not. -/
theorem lower_bound_sorted (h : StrictWeakOrder comp) (x : α) (Y : List α)
    (hY : Sorted comp Y) :
    ∃ k : Nat, lower_bound comp Y 0 (Y.length : Int) x = some (k : Int) ∧ k ≤ Y.length ∧
      (∀ y ∈ Y.take k, comp y x = true) ∧ (∀ y ∈ Y.drop k, comp y x = false) := by
  have hsplit : Y.takeWhile (fun y => comp y x) ++ Y.dropWhile (fun y => comp y x) = Y :=
    List.takeWhile_append_dropWhile _ _
  have hA : ∀ a ∈ Y.takeWhile (fun y => comp y x), comp a x = true :=
    fun a ha => @List.mem_takeWhile_imp α (fun y => comp y x) Y a ha
  have hB : ∀ b ∈ Y.dropWhile (fun y => comp y x), comp b x = false := by
    intro b hb
    cases hd : Y.dropWhile (fun y => comp y x) with
    | nil => rw [hd] at hb; cases hb
    | cons c rest =>
      have hc : comp c x = false := by
        have := List.head_dropWhile_not (fun y => comp y x) Y (by rw [hd]; simp)
        simpa [hd] using this
      have hs : Sorted comp (c :: rest) := by
        rw [← hd]
        exact List.Pairwise.sublist (List.dropWhile_sublist _) hY
      rw [hd] at hb
      cases hb with
      | head => exact hc
      | tail _ hb => exact h.neg_trans ((List.pairwise_cons.1 hs).1 b hb) hc
  refine ⟨(Y.takeWhile (fun y => comp y x)).length, ?_, ?_, ?_, ?_⟩
  · have := lower_bound_append comp x _ _ hA hB
    rw [hsplit] at this
    exact this
  · have := congrArg List.length hsplit
    simp only [List.length_append] at this
    omega
  · intro y hy
    have := take_length_append (Y.takeWhile (fun y => comp y x))
      (Y.dropWhile (fun y => comp y x))
    rw [hsplit] at this
    rw [this] at hy
    exact hA y hy
  · intro y hy
    have := drop_length_append (Y.takeWhile (fun y => comp y x))
      (Y.dropWhile (fun y => comp y x))
    rw [hsplit] at this
    rw [this] at hy
    exact hB y hy

theorem MergeShape.perm {X Y M : List α} (hs : MergeShape comp X Y M) : M.Perm (X ++ Y) := by
  induction hs with
  | fallback X Y => exact stdMerge_perm comp X Y
  | swap _ ih => exact ih.trans List.perm_append_comm
  | @split X1 X2 Y M1 M2 x k _ _ _ ih1 ih2 =>
    have hY : (Y.take k ++ Y.drop k).Perm Y := by rw [List.take_append_drop]
    have h1 : (M1 ++ x :: M2).Perm ((X1 ++ Y.take k) ++ x :: (X2 ++ Y.drop k)) :=
      List.Perm.append ih1 (List.Perm.cons x ih2)
    refine h1.trans ?_
    have h2 : ((X1 ++ Y.take k) ++ x :: (X2 ++ Y.drop k)).Perm
        ((X1 ++ x :: X2) ++ (Y.take k ++ Y.drop k)) := by
      classical
      rw [List.perm_iff_count]
      intro a
      simp only [List.count_append, List.count_cons]
      omega
    exact h2.trans (List.Perm.append_left _ hY)

theorem MergeShape.length_eq {X Y M : List α} (hs : MergeShape comp X Y M) :
    M.length = X.length + Y.length := by
  have := hs.perm.length_eq
  simpa using this

theorem MergeShape.sorted (h : StrictWeakOrder comp) {X Y M : List α}
    (hs : MergeShape comp X Y M) : Sorted comp X → Sorted comp Y → Sorted comp M := by
  induction hs with
  | fallback X Y => exact fun hX hY => stdMerge_sorted h hX hY
  | swap _ ih => exact fun hX hY => ih hY hX
  | @split X1 X2 Y M1 M2 x k hk s1 s2 ih1 ih2 =>
    intro hX hY
    obtain ⟨k', hk', _, hlo, hhi⟩ := lower_bound_sorted h x Y hY
    have hkk : k' = k := by
      rw [hk] at hk'
      exact (Int.ofNat_inj.1 (Option.some.inj hk')).symm
    subst hkk
    unfold Sorted at hX
    rw [List.pairwise_append] at hX
    obtain ⟨hX1, hxX2, hcross⟩ := hX
    rw [List.pairwise_cons] at hxX2
    obtain ⟨hxle, hX2⟩ := hxX2
    have hM1 := ih1 hX1 (List.Pairwise.sublist (List.take_sublist _ _) hY)
    have hM2 := ih2 hX2 (List.Pairwise.sublist (List.drop_sublist _ _) hY)
    have m1 : ∀ a ∈ M1, comp x a = false := by
      intro a ha
      rcases List.mem_append.1 (s1.perm.mem_iff.1 ha) with ha | ha
      · exact hcross a ha x (List.mem_cons_self _ _)
      · exact h.asymm (hlo a ha)
    have m2 : ∀ b ∈ M2, comp b x = false := by
      intro b hb
      rcases List.mem_append.1 (s2.perm.mem_iff.1 hb) with hb | hb
      · exact hxle b hb
      · exact hhi b hb
    unfold Sorted
    rw [List.pairwise_append]
    refine ⟨hM1, List.pairwise_cons.2 ⟨m2, hM2⟩, ?_⟩
    intro a ha b hb
    rcases List.mem_cons.1 hb with rfl | hb
    · exact m1 a ha
    · exact h.neg_trans (m2 b hb) (m1 a ha)

end shape
section refinement
variable {α : Type}

theorem writesFrom_append (r : Int) (A B : List α) :
    writesFrom r (A ++ B) = writesFrom r A ++ writesFrom (r + A.length) B := by
  induction A generalizing r with
  | nil => simp [writesFrom]
  | cons a A ih =>
    have hr : r + 1 + (A.length : Int) = r + ((A.length + 1 : Nat) : Int) := by
      push_cast; omega
    show (r, a) :: writesFrom (r + 1) (A ++ B)
      = (r, a) :: writesFrom (r + 1) A ++ writesFrom (r + ((A.length + 1 : Nat) : Int)) B
    rw [ih, hr]
    rfl

theorem slice_take (buf : List α) (a b c : Int) (ha : 0 ≤ a) (hab : a ≤ b) (hbc : b ≤ c)
    (hc : c ≤ (buf.length : Int)) :
    (slice buf a c).take (b - a).toNat = slice buf a b ∧
      (slice buf a c).drop (b - a).toNat = slice buf b c := by
  have hl := slice_length buf a b ha hab (by omega)
  have hn : (b - a).toNat = (slice buf a b).length := by omega
  rw [slice_append buf a b c ha hab hbc, hn]
  exact ⟨take_length_append _ _, drop_length_append _ _⟩

theorem strategyBTasking_shape (comp : α → α → Bool) (cutoff : Nat) (h3 : 3 ≤ cutoff) :
    ∀ (fuel : Nat) (c1 : List α) (f1 l1 : Int) (c2 : List α) (f2 l2 : Int) (result : Int),
      validRange c1 f1 l1 = true → validRange c2 f2 l2 = true →
      (2 * ((l1 - f1) + (l2 - f2)) + 2 ≤ (fuel : Int) ∨
        (l2 - f2 ≤ l1 - f1 ∧ 2 * ((l1 - f1) + (l2 - f2)) + 1 ≤ (fuel : Int))) →
      ∃ ws M, strategyBTasking comp cutoff fuel c1 f1 l1 c2 f2 l2 result = Outcome.done ws ∧
        MergeShape comp (slice c1 f1 l1) (slice c2 f2 l2) M ∧
        ws.Perm (writesFrom result M) := by
  intro fuel
  induction fuel with
  | zero =>
    intro c1 f1 l1 c2 f2 l2 result hv1 hv2 hfuel
    rw [validRange_iff] at hv1 hv2
    exfalso
    omega
  | succ fuel ih =>
    intro c1 f1 l1 c2 f2 l2 result hv1 hv2 hfuel
    have hv1' := hv1
    have hv2' := hv2
    rw [validRange_iff] at hv1 hv2
    obtain ⟨hf1, hfl1, hl1⟩ := hv1
    obtain ⟨hf2, hfl2, hl2⟩ := hv2
    unfold strategyBTasking
    simp only []
    by_cases hcut : (l1 - f1 + (l2 - f2)) % 2 ^ 64 < (cutoff : Int)
    · simp only [hcut, if_true, hv1', hv2', Bool.and_self]
      exact ⟨_, _, rfl, MergeShape.fallback _ _, List.Perm.refl _⟩
    · simp only [hcut, if_false]
      by_cases hswap : l1 - f1 < l2 - f2
      · simp only [hswap, if_true]
        obtain ⟨ws, M, hrun, hshape, hperm⟩ := ih c2 f2 l2 c1 f1 l1 result hv2' hv1'
          (by push_cast at hfuel; omega)
        exact ⟨ws, M, hrun, MergeShape.swap hshape, hperm⟩
      · simp only [hswap, if_false]
        have hsum : 3 ≤ l1 - f1 + (l2 - f2) := by
          have : (3 : Int) ≤ (cutoff : Int) := by exact_mod_cast h3
          omega
        have hs1 : 2 ≤ l1 - f1 := by omega
        have hdiv : (l1 - f1).tdiv 2 = (l1 - f1) / 2 :=
          Int.tdiv_eq_ediv (by omega) (by decide)
        have hmod : (l1 - f1).tmod 2 = (l1 - f1) % 2 :=
          Int.tmod_eq_emod (by omega) (by decide)
        rw [hdiv, hmod]
        generalize hm1 : f1 + (l1 - f1) / 2 + (l1 - f1) % 2 = middle1
        have hm1lo : f1 < middle1 := by omega
        have hm1hi : middle1 < l1 := by omega
        obtain ⟨pivot, hpivot⟩ := deref_isSome c1 middle1 (by omega) (by omega)
        simp only [hpivot]
        -- the rank of the pivot in the right range
        have hYlen := slice_length c2 f2 l2 hf2 hfl2 hl2
        have hvY : validRange (slice c2 f2 l2) 0 ((slice c2 f2 l2).length : Int) = true := by
          rw [validRange_iff]; omega
        obtain ⟨k0, hk0, hk0lo, hk0hi⟩ := lowerBoundLoop_bounds comp (slice c2 f2 l2) pivot
          (((slice c2 f2 l2).length : Int) - 0).toNat 0 ((slice c2 f2 l2).length : Int)
          (le_refl _) (by omega) (by omega) (by omega)
        have hlbY : lower_bound comp (slice c2 f2 l2) 0 ((slice c2 f2 l2).length : Int) pivot
            = some k0 := by
          unfold lower_bound
          rw [hvY]
          simpa using hk0
        have hlb : lower_bound comp c2 f2 l2 pivot = some (f2 + k0) := by
          rw [lower_bound_slice comp c2 pivot f2 l2 hv2', hlbY]
          rfl
        simp only [hlb]
        generalize hm2 : f2 + k0 = middle2
        have hk0' : k0 = ((middle2 - f2).toNat : Int) := by omega
        -- the two recursive calls
        obtain ⟨w1, M1, hrun1, hshape1, hperm1⟩ := ih c1 f1 middle1 c2 f2 middle2 result
          (by rw [validRange_iff]; omega) (by rw [validRange_iff]; omega)
          (by push_cast at hfuel; omega)
        obtain ⟨w2, M2, hrun2, hshape2, hperm2⟩ := ih c1 (middle1 + 1) l1 c2 middle2 l2
          (result + (middle1 - f1) + (middle2 - f2) + 1)
          (by rw [validRange_iff]; omega) (by rw [validRange_iff]; omega)
          (by push_cast at hfuel; omega)
        simp only [hrun1, hrun2]
        refine ⟨_, M1 ++ pivot :: M2, rfl, ?_, ?_⟩
        · have hX : slice c1 f1 l1
              = slice c1 f1 middle1 ++ pivot :: slice c1 (middle1 + 1) l1 := by
            rw [slice_append c1 f1 middle1 l1 hf1 (by omega) (by omega),
              slice_append c1 middle1 (middle1 + 1) l1 (by omega) (by omega) (by omega),
              slice_singleton c1 middle1 pivot hpivot]
            rfl
          obtain ⟨ht, hd⟩ := slice_take c2 f2 middle2 l2 hf2 (by omega) (by omega) hl2
          rw [hX]
          refine MergeShape.split pivot (middle2 - f2).toNat ?_ ?_ ?_
          · rw [hlbY, hk0']
          · rw [ht]; exact hshape1
          · rw [hd]; exact hshape2
        · have hlen1 := hshape1.length_eq
          have hX1 := slice_length c1 f1 middle1 hf1 (by omega) (by omega)
          have hY1 := slice_length c2 f2 middle2 hf2 (by omega) (by omega)
          have hpos : result + (middle1 - f1) + (middle2 - f2) = result + (M1.length : Int) := by
            rw [hlen1]; push_cast; omega
          rw [writesFrom_append, writesFrom, hpos]
          rw [hpos] at hperm2
          exact (List.Perm.cons _ (List.Perm.append hperm1 hperm2)).trans
            List.perm_middle.symm

end refinement
section storing
variable {α : Type}

theorem writesFrom_map_fst (r : Int) (M : List α) :
    (writesFrom r M).map Prod.fst = (List.range M.length).map (fun (i : Nat) => r + (i : Int)) := by
  induction M generalizing r with
  | nil => simp [writesFrom]
  | cons a M ih =>
    rw [writesFrom, List.map_cons, ih, List.length_cons, List.range_succ_eq_map, List.map_cons,
      List.map_map]
    simp only [Nat.cast_zero, add_zero, List.cons.injEq, true_and]
    apply List.map_congr_left
    intro i _
    simp only [Function.comp, Nat.succ_eq_add_one]
    push_cast
    omega

theorem writesFrom_nodup (r : Int) (M : List α) : ((writesFrom r M).map Prod.fst).Nodup := by
  rw [writesFrom_map_fst]
  refine List.Nodup.map ?_ (List.nodup_range _)
  intro i j hij
  simp only at hij
  omega

theorem writesFrom_length (r : Int) (M : List α) : (writesFrom r M).length = M.length := by
  induction M generalizing r with
  | nil => rfl
  | cons a M ih => simp [writesFrom, ih]

theorem writeAt_length {out out1 : List α} {w : Int × α} (h : writeAt out w = some out1) :
    out1.length = out.length := by
  unfold writeAt at h
  split at h
  · cases h; simp
  · cases h

theorem writeAt_comm (out : List α) (w1 w2 : Int × α) (hne : w1.1 ≠ w2.1) :
    (writeAt out w1).bind (fun o => writeAt o w2) = (writeAt out w2).bind (fun o => writeAt o w1) := by
  unfold writeAt
  by_cases h1 : 0 ≤ w1.1 ∧ w1.1 < (out.length : Int)
  · by_cases h2 : 0 ≤ w2.1 ∧ w2.1 < (out.length : Int)
    · have hn : w1.1.toNat ≠ w2.1.toNat := by omega
      simp [h1, h2, List.set_comm _ _ _ hn]
    · simp [h1, h2]
  · by_cases h2 : 0 ≤ w2.1 ∧ w2.1 < (out.length : Int)
    · simp [h1, h2]
    · simp [h1, h2]

theorem store_cons (out : List α) (w : Int × α) (ws : List (Int × α)) :
    store out (w :: ws) = (writeAt out w).bind (fun o => store o ws) := by
  rw [store]
  cases writeAt out w <;> rfl

/-- Writes to pairwise distinct positions can be replayed in any order. -/
theorem store_perm {l1 l2 : List (Int × α)} (hp : l1.Perm l2) :
    (l1.map Prod.fst).Nodup → ∀ out : List α, store out l1 = store out l2 := by
  induction hp with
  | nil => intro _ _; rfl
  | cons w _ ih =>
    intro hnd out
    rw [List.map_cons, List.nodup_cons] at hnd
    rw [store_cons, store_cons]
    cases writeAt out w with
    | none => rfl
    | some o => exact ih hnd.2 o
  | swap w1 w2 l =>
    intro hnd out
    rw [List.map_cons, List.map_cons, List.nodup_cons] at hnd
    have hne : w1.1 ≠ w2.1 := by
      intro h
      exact hnd.1 (by rw [h]; exact List.mem_cons_self _ _)
    simp only [store_cons]
    have := writeAt_comm out w2 w1 (Ne.symm hne)
    rw [← Option.bind_assoc, ← Option.bind_assoc, this]
  | trans h12 _ ih1 ih2 =>
    intro hnd out
    have hnd2 : (List.map Prod.fst _).Nodup := ((h12.map Prod.fst).nodup_iff).1 hnd
    rw [ih1 hnd out, ih2 hnd2 out]

theorem store_writesFrom (M : List α) : ∀ (r : Nat) (out : List α), r + M.length ≤ out.length →
    store out (writesFrom (r : Int) M) = some (out.take r ++ M ++ out.drop (r + M.length)) := by
  induction M with
  | nil => intro r out _; simp [writesFrom, store]
  | cons a M ih =>
    intro r out h
    simp only [List.length_cons] at h
    have hlt : r < out.length := by omega
    have hw : writeAt out ((r : Int), a) = some (out.set r a) := by
      simp [writeAt, hlt]
    rw [writesFrom, store_cons, hw]
    simp only [Option.some_bind]
    have := ih (r + 1) (out.set r a) (by simp; omega)
    rw [show ((r : Int) + 1) = ((r + 1 : Nat) : Int) by push_cast; rfl, this]
    congr 1
    rw [List.set_eq_take_append_cons_drop]
    simp only [hlt, if_true]
    have hlen : (out.take r).length = r := by simp; omega
    have e1 : (out.take r ++ a :: out.drop (r + 1)).take (r + 1) = out.take r ++ [a] := by
      rw [List.take_append_eq_append_take, hlen, List.take_take]
      simp
    have e2 : (out.take r ++ a :: out.drop (r + 1)).drop (r + 1 + M.length)
        = out.drop (r + (M.length + 1)) := by
      rw [List.drop_append_eq_append_drop, hlen]
      rw [@List.drop_of_length_le α (r + 1 + M.length) (out.take r) (by omega)]
      have : r + 1 + M.length - r = (M.length) + 1 := by omega
      rw [this, List.nil_append, List.drop_succ_cons, List.drop_drop]
      congr 1
      omega
    rw [e1, e2, List.length_cons]
    simp

/-- Replaying a log that writes each position of `[r, r + |M|)` once, with the
elements of `M`, overwrites exactly that part of the output container. -/
theorem store_of_perm (M : List α) (r : Nat) (out : List α) (ws : List (Int × α))
    (hp : ws.Perm (writesFrom (r : Int) M)) (h : r + M.length ≤ out.length) :
    store out ws = some (out.take r ++ M ++ out.drop (r + M.length)) := by
  rw [← store_writesFrom M r out h]
  exact (store_perm hp.symm (writesFrom_nodup _ _) out).symm

end storing
section toplevel
variable {α : Type}

/-- For a cutoff of at least 3 the call on whole containers returns, whatever
the comparator and the contents: the part `[r, r + |L| + |R|)` of the output
container is overwritten by a sequence `M` that has the shape of the recursion, the rest
is untouched, and the returned position is `r + |L| + |R|`. -/
theorem mergeVectors_shape (comp : α → α → Bool) (cutoff : Nat) (h3 : 3 ≤ cutoff)
    (L R out : List α) (r : Nat) (hcap : r + (L.length + R.length) ≤ out.length)
    (fuel : Nat) (hfuel : 2 * (L.length + R.length) + 2 ≤ fuel) :
    ∃ M, MergeShape comp L R M ∧
      mergeVectors comp cutoff fuel L R out r
        = Outcome.done (out.take r ++ M ++ out.drop (r + (L.length + R.length)),
            (r : Int) + L.length + R.length) := by
  obtain ⟨ws, M, hrun, hshape, hperm⟩ := strategyBTasking_shape comp cutoff h3 fuel
    L 0 L.length R 0 R.length r (by rw [validRange_iff]; omega) (by rw [validRange_iff]; omega)
    (by left; omega)
  rw [slice_whole, slice_whole] at hshape
  refine ⟨M, hshape, ?_⟩
  have hlen := hshape.length_eq
  have hstore := store_of_perm M r out ws hperm (by omega)
  unfold mergeVectors apply strategyB
  rw [hrun]
  simp only [hstore, hlen, sub_zero]

theorem Sorted.eq_of_perm {comp : α → α → Bool} (hlin : Linear comp) {M N : List α}
    (hM : Sorted comp M) (hN : Sorted comp N) (hp : M.Perm N) : M = N := by
  haveI : IsAntisymm α (fun a b => comp b a = false) :=
    ⟨fun a b hab hba => hlin a b hba hab⟩
  exact List.eq_of_perm_of_sorted hp hM hN

/-- Under a linear comparator the result of the recursion is the sequential merge. -/
theorem MergeShape.eq_stdMerge {comp : α → α → Bool} (h : StrictWeakOrder comp)
    (hlin : Linear comp) {X Y M : List α} (hs : MergeShape comp X Y M)
    (hX : Sorted comp X) (hY : Sorted comp Y) : M = stdMerge comp X Y :=
  Sorted.eq_of_perm hlin (hs.sorted h hX hY) (stdMerge_sorted h hX hY)
    (hs.perm.trans (stdMerge_perm comp X Y).symm)

end toplevel
section stability
variable {α : Type} {comp : α → α → Bool}

theorem mem_mergeLoop (comp : α → α → Bool) (n : Nat) (xs ys : List α)
    (hn : xs.length + ys.length ≤ n) (a : α) :
    a ∈ mergeLoop comp n xs ys ↔ a ∈ xs ∨ a ∈ ys := by
  rw [mergeLoop_eq_merge comp n xs ys hn]
  exact List.mem_merge

theorem mergeLoop_filter (comp : α → α → Bool) (p : α → Bool) :
    ∀ (n : Nat) (xs ys : List α), xs.length + ys.length ≤ n →
      (∀ x ∈ xs, p x = true) → (∀ y ∈ ys, p y = false) →
      (mergeLoop comp n xs ys).filter p = xs ∧
        (mergeLoop comp n xs ys).filter (fun a => !p a) = ys := by
  intro n
  induction n with
  | zero =>
    intro xs ys h _ _
    have hx : xs = [] := List.eq_nil_of_length_eq_zero (by omega)
    have hy : ys = [] := List.eq_nil_of_length_eq_zero (by omega)
    subst hx; subst hy
    simp [mergeLoop]
  | succ n ih =>
    intro xs ys h hxs hys
    have fx : ∀ l : List α, (∀ x ∈ l, p x = true) →
        l.filter p = l ∧ l.filter (fun a => !p a) = [] := by
      intro l hl
      refine ⟨List.filter_eq_self.2 hl, List.filter_eq_nil_iff.2 ?_⟩
      intro a ha; simp [hl a ha]
    have fy : ∀ l : List α, (∀ y ∈ l, p y = false) →
        l.filter p = [] ∧ l.filter (fun a => !p a) = l := by
      intro l hl
      refine ⟨List.filter_eq_nil_iff.2 ?_, List.filter_eq_self.2 ?_⟩
      · intro a ha; simp [hl a ha]
      · intro a ha; simp [hl a ha]
    cases xs with
    | nil =>
      rw [mergeLoop]
      exact fy ys hys
    | cons x xs =>
      cases ys with
      | nil =>
        rw [mergeLoop]
        · exact fx (x :: xs) hxs
        · intro hnil; cases hnil
      | cons y ys =>
        simp only [List.length_cons] at h
        have hx : p x = true := hxs x (List.mem_cons_self _ _)
        have hy : p y = false := hys y (List.mem_cons_self _ _)
        rw [mergeLoop]
        cases comp y x with
        | true =>
          obtain ⟨h1, h2⟩ := ih (x :: xs) ys (by simp only [List.length_cons]; omega) hxs
            (fun b hb => hys b (List.mem_cons_of_mem _ hb))
          simp only [if_true]
          rw [List.filter_cons, List.filter_cons]
          simp only [hy, Bool.false_eq_true, if_false, Bool.not_false, if_true, h1, h2]
          exact ⟨trivial, trivial⟩
        | false =>
          obtain ⟨h1, h2⟩ := ih xs (y :: ys) (by simp only [List.length_cons]; omega)
            (fun b hb => hxs b (List.mem_cons_of_mem _ hb)) hys
          simp only [Bool.false_eq_true, if_false]
          rw [List.filter_cons, List.filter_cons]
          simp only [hx, if_true, Bool.not_true, Bool.false_eq_true, if_false, h1, h2]
          exact ⟨trivial, trivial⟩

/-- The recursion keeps the elements of each input in their relative order:
a predicate that holds on the left input and fails on the right input selects
from the result exactly the left input, and its negation the right input. -/
theorem MergeShape.filter {X Y M : List α} (hs : MergeShape comp X Y M) :
    ∀ p : α → Bool, (∀ x ∈ X, p x = true) → (∀ y ∈ Y, p y = false) →
      M.filter p = X ∧ M.filter (fun a => !p a) = Y := by
  induction hs with
  | fallback X Y =>
    intro p hX hY
    exact mergeLoop_filter comp p _ X Y (Nat.le_refl _) hX hY
  | swap _ ih =>
    intro p hX hY
    obtain ⟨h1, h2⟩ := ih (fun a => !p a) (fun y hy => by simp [hY y hy])
      (fun x hx => by simp [hX x hx])
    refine ⟨?_, h1⟩
    simpa using h2
  | @split X1 X2 Y M1 M2 x k _ _ _ ih1 ih2 =>
    intro p hX hY
    obtain ⟨a1, a2⟩ := ih1 p (fun a ha => hX a (List.mem_append_left _ ha))
      (fun b hb => hY b (List.mem_of_mem_take hb))
    obtain ⟨b1, b2⟩ := ih2 p
      (fun a ha => hX a (List.mem_append_right _ (List.mem_cons_of_mem _ ha)))
      (fun b hb => hY b (List.mem_of_mem_drop hb))
    have hx : p x = true := hX x (List.mem_append_right _ (List.mem_cons_self _ _))
    rw [List.filter_append, List.filter_append, List.filter_cons, List.filter_cons]
    simp only [hx, if_true, Bool.not_true, Bool.false_eq_true, if_false, a1, a2, b1, b2,
      List.take_append_drop]
    exact ⟨trivial, trivial⟩

/-- The sequential merge of a sorted left input puts an element of the right
input before an element of the left input only when it is `comp`-less. -/
theorem mergeLoop_stable (h : StrictWeakOrder comp) (p : α → Bool) :
    ∀ (n : Nat) (xs ys : List α), xs.length + ys.length ≤ n → Sorted comp xs →
      (∀ x ∈ xs, p x = true) → (∀ y ∈ ys, p y = false) →
      (mergeLoop comp n xs ys).Pairwise
        (fun a b => p a = false → p b = true → comp a b = true) := by
  intro n
  induction n with
  | zero =>
    intro xs ys hn _ _ _
    have hx : xs = [] := List.eq_nil_of_length_eq_zero (by omega)
    have hy : ys = [] := List.eq_nil_of_length_eq_zero (by omega)
    subst hx; subst hy
    simp [mergeLoop]
  | succ n ih =>
    intro xs ys hn hsx hxs hys
    cases xs with
    | nil =>
      rw [mergeLoop]
      refine List.pairwise_of_forall_mem_list ?_
      intro a _ b hb _ hpb
      rw [hys b hb] at hpb
      cases hpb
    | cons x xs =>
      cases ys with
      | nil =>
        rw [mergeLoop]
        · refine List.pairwise_of_forall_mem_list ?_
          intro a ha _ _ hpa
          rw [hxs a ha] at hpa
          cases hpa
        · intro hnil; cases hnil
      | cons y ys =>
        simp only [List.length_cons] at hn
        rw [mergeLoop]
        cases hc : comp y x with
        | true =>
          simp only [if_true]
          have hlen : (x :: xs).length + ys.length ≤ n := by
            simp only [List.length_cons]; omega
          refine List.pairwise_cons.2 ⟨?_, ih (x :: xs) ys hlen hsx hxs
            (fun b hb => hys b (List.mem_cons_of_mem _ hb))⟩
          intro b hb _ hpb
          rcases (mem_mergeLoop comp n (x :: xs) ys hlen b).1 hb with hb | hb
          · rcases List.mem_cons.1 hb with rfl | hb
            · exact hc
            · cases hyb : comp y b with
              | true => rfl
              | false =>
                have := h.neg_trans hyb ((List.pairwise_cons.1 hsx).1 b hb)
                rw [hc] at this
                cases this
          · rw [hys b (List.mem_cons_of_mem _ hb)] at hpb
            cases hpb
        | false =>
          simp only [Bool.false_eq_true, if_false]
          refine List.pairwise_cons.2 ⟨?_, ih xs (y :: ys)
            (by simp only [List.length_cons]; omega) (List.pairwise_cons.1 hsx).2
            (fun b hb => hxs b (List.mem_cons_of_mem _ hb)) hys⟩
          intro b _ hpx _
          rw [hxs x (List.mem_cons_self _ _)] at hpx
          cases hpx

end stability
section divergence
variable {α : Type}

/-- One transition of the driver in the split case, spelled out. -/
theorem strategyBTasking_split (comp : α → α → Bool) (cutoff fuel : Nat) (c1 : List α)
    (f1 l1 : Int) (c2 : List α) (f2 l2 result middle1 middle2 : Int) (pivot : α)
    (hcut : ¬ (l1 - f1 + (l2 - f2)) % 2 ^ 64 < (cutoff : Int)) (hswap : ¬ l1 - f1 < l2 - f2)
    (hm : f1 + (l1 - f1).tdiv 2 + (l1 - f1).tmod 2 = middle1)
    (hp : deref c1 middle1 = some pivot)
    (hlb : lower_bound comp c2 f2 l2 pivot = some middle2) :
    strategyBTasking comp cutoff (fuel + 1) c1 f1 l1 c2 f2 l2 result =
      match strategyBTasking comp cutoff fuel c1 f1 middle1 c2 f2 middle2 result with
      | Outcome.done w1 =>
        match strategyBTasking comp cutoff fuel c1 (middle1 + 1) l1 c2 middle2 l2
            (result + (middle1 - f1) + (middle2 - f2) + 1) with
        | Outcome.done w2 =>
          Outcome.done ((result + (middle1 - f1) + (middle2 - f2), pivot) :: (w1 ++ w2))
        | Outcome.undefined => Outcome.undefined
        | Outcome.timeout => Outcome.timeout
      | Outcome.undefined => Outcome.undefined
      | Outcome.timeout => Outcome.timeout := by
  rw [strategyBTasking]
  simp only [hcut, hswap, if_false, hm, hp, hlb]

/-- A split whose pivot position is `last1` and whose rank is `last2` hands its
own arguments to its left task: the call never returns. -/
theorem strategyBTasking_self_call (comp : α → α → Bool) (cutoff : Nat) (c1 : List α)
    (f1 l1 : Int) (c2 : List α) (f2 l2 result : Int) (pivot : α)
    (hcut : ¬ (l1 - f1 + (l2 - f2)) % 2 ^ 64 < (cutoff : Int)) (hswap : ¬ l1 - f1 < l2 - f2)
    (hm : f1 + (l1 - f1).tdiv 2 + (l1 - f1).tmod 2 = l1)
    (hp : deref c1 l1 = some pivot)
    (hlb : lower_bound comp c2 f2 l2 pivot = some l2) :
    ∀ fuel, strategyBTasking comp cutoff fuel c1 f1 l1 c2 f2 l2 result = Outcome.timeout := by
  intro fuel
  induction fuel with
  | zero => rfl
  | succ fuel ih =>
    rw [strategyBTasking_split comp cutoff fuel c1 f1 l1 c2 f2 l2 result l1 l2 pivot hcut hswap
      hm hp hlb, ih]

/-- With `cutoff = 0` the size test never selects the sequential merge, so no
call of the driver returns. -/
theorem strategyBTasking_cutoff_zero (comp : α → α → Bool) :
    ∀ (fuel : Nat) (c1 : List α) (f1 l1 : Int) (c2 : List α) (f2 l2 result : Int)
      (ws : List (Int × α)),
      strategyBTasking comp 0 fuel c1 f1 l1 c2 f2 l2 result ≠ Outcome.done ws := by
  intro fuel
  induction fuel with
  | zero =>
    intro c1 f1 l1 c2 f2 l2 result ws h
    cases h
  | succ fuel ih =>
    intro c1 f1 l1 c2 f2 l2 result ws
    have hcut : ¬ (l1 - f1 + (l2 - f2)) % 2 ^ 64 < ((0 : Nat) : Int) := by
      push_cast
      omega
    rw [strategyBTasking]
    simp only [hcut, if_false]
    by_cases hswap : l1 - f1 < l2 - f2
    · simp only [hswap, if_true]
      exact ih _ _ _ _ _ _ _ ws
    · simp only [hswap, if_false]
      cases deref c1 (f1 + (l1 - f1).tdiv 2 + (l1 - f1).tmod 2) with
      | none => intro h; cases h
      | some pivot =>
        simp only
        cases lower_bound comp c2 f2 l2 pivot with
        | none => intro h; cases h
        | some middle2 =>
          simp only
          cases hleft : strategyBTasking comp 0 fuel c1 f1
              (f1 + (l1 - f1).tdiv 2 + (l1 - f1).tmod 2) c2 f2 middle2 result with
          | done w1 => exact absurd hleft (ih _ _ _ _ _ _ _ w1)
          | undefined => intro h; cases h
          | timeout => intro h; cases h

theorem mergeVectors_cutoff_zero (comp : α → α → Bool) (fuel : Nat) (L R out : List α)
    (r : Nat) (res : List α × Int) :
    mergeVectors comp 0 fuel L R out r ≠ Outcome.done res := by
  unfold mergeVectors apply strategyB
  cases h : strategyBTasking comp 0 fuel L 0 L.length R 0 R.length r with
  | done ws => exact absurd h (strategyBTasking_cutoff_zero comp _ _ _ _ _ _ _ _ ws)
  | undefined => intro h; cases h
  | timeout => intro h; cases h

end divergence

section corollaries
variable {α : Type}

/-- Below the cutoff the call is the sequential merge. -/
theorem mergeVectors_fallback (comp : α → α → Bool) (cutoff : Nat) (L R out : List α)
    (r : Nat) (hlt : L.length + R.length < cutoff)
    (hcap : r + (L.length + R.length) ≤ out.length) (fuel : Nat) (hfuel : 1 ≤ fuel) :
    mergeVectors comp cutoff fuel L R out r
      = Outcome.done (out.take r ++ stdMerge comp L R ++ out.drop (r + (L.length + R.length)),
          (r : Int) + L.length + R.length) := by
  obtain ⟨fuel, rfl⟩ : ∃ n, fuel = n + 1 := ⟨fuel - 1, by omega⟩
  have hcut : ((L.length : Int) + (R.length : Int)) % 2 ^ 64 < (cutoff : Int) := by
    have : ((L.length : Int) + R.length) < cutoff := by exact_mod_cast hlt
    omega
  have hv1 : validRange L 0 (L.length : Int) = true := by rw [validRange_iff]; omega
  have hv2 : validRange R 0 (R.length : Int) = true := by rw [validRange_iff]; omega
  have hlen : (stdMerge comp L R).length = L.length + R.length := by
    have := (stdMerge_perm comp L R).length_eq
    simpa using this
  have hstore := store_writesFrom (stdMerge comp L R) r out (by omega)
  unfold mergeVectors apply strategyB
  rw [strategyBTasking]
  simp only [sub_zero, hcut, if_true, hv1, hv2, Bool.and_self, slice_whole, hstore, hlen]

/-- For a cutoff of at least 3, a strict weak ordering and sorted inputs, the
call returns with a sorted permutation of the inputs in the output range. -/
theorem mergeVectors_sorted_perm (comp : α → α → Bool) (hswo : StrictWeakOrder comp)
    (cutoff : Nat) (h3 : 3 ≤ cutoff) (L R out : List α) (hL : Sorted comp L)
    (hR : Sorted comp R) (r : Nat) (hcap : r + (L.length + R.length) ≤ out.length)
    (fuel : Nat) (hfuel : 2 * (L.length + R.length) + 2 ≤ fuel) :
    ∃ M, mergeVectors comp cutoff fuel L R out r
        = Outcome.done (out.take r ++ M ++ out.drop (r + (L.length + R.length)),
            (r : Int) + L.length + R.length) ∧
      Sorted comp M ∧ M.Perm (L ++ R) := by
  obtain ⟨M, hshape, hrun⟩ := mergeVectors_shape comp cutoff h3 L R out r hcap fuel hfuel
  exact ⟨M, hrun, hshape.sorted hswo hL hR, hshape.perm⟩

/-- For a cutoff of at least 3, a linear comparator and sorted inputs, the call
returns with the sequential merge of the inputs in the output range. -/
theorem mergeVectors_linear (comp : α → α → Bool) (hswo : StrictWeakOrder comp)
    (hlin : Linear comp) (cutoff : Nat) (h3 : 3 ≤ cutoff) (L R out : List α)
    (hL : Sorted comp L) (hR : Sorted comp R) (r : Nat)
    (hcap : r + (L.length + R.length) ≤ out.length)
    (fuel : Nat) (hfuel : 2 * (L.length + R.length) + 2 ≤ fuel) :
    mergeVectors comp cutoff fuel L R out r
      = Outcome.done (out.take r ++ stdMerge comp L R ++ out.drop (r + (L.length + R.length)),
          (r : Int) + L.length + R.length) := by
  obtain ⟨M, hshape, hrun⟩ := mergeVectors_shape comp cutoff h3 L R out r hcap fuel hfuel
  rw [hrun, hshape.eq_stdMerge hswo hlin hL hR]

theorem intLess_swo : StrictWeakOrder intLess where
  irrefl := by intro a; simp [intLess]
  trans := by
    intro a b c
    simp only [intLess, decide_eq_true_eq]
    omega
  incomp_trans := by
    intro a b c
    simp only [intLess, decide_eq_false_iff_not]
    omega

theorem intLess_linear : Linear intLess := by
  intro a b
  simp only [intLess, decide_eq_false_iff_not]
  omega

theorem byValue_swo {comp : α → α → Bool} (h : StrictWeakOrder comp) :
    StrictWeakOrder (byValue comp) where
  irrefl := fun a => h.irrefl a.1
  trans := fun a b c => h.trans a.1 b.1 c.1
  incomp_trans := fun a b c => h.incomp_trans a.1 b.1 c.1

theorem tagged_sorted {comp : α → α → Bool} (b : Bool) {l : List α} (h : Sorted comp l) :
    Sorted (byValue comp) (tagged b l) := by
  unfold Sorted tagged
  rw [List.pairwise_map]
  exact h

theorem is_sorted_of_sorted {comp : α → α → Bool} :
    ∀ {l : List α}, Sorted comp l → is_sorted comp l = true
  | [], _ => rfl
  | [_], _ => rfl
  | x :: y :: rest, h => by
    have h1 := List.pairwise_cons.1 h
    rw [is_sorted, h1.1 y (List.mem_cons_self _ _), is_sorted_of_sorted h1.2]
    rfl

theorem iota_length (n : Nat) (s : Int) : (iota n s).length = n := by
  simp [iota]

theorem iota_sorted (n : Nat) (s : Int) : Sorted intLess (iota n s) := by
  unfold Sorted iota
  rw [List.pairwise_map]
  refine (List.pairwise_lt_range n).imp ?_
  intro a b hab
  simp only [intLess, decide_eq_false_iff_not]
  omega

end corollaries

/-- When the left task of a split never returns, neither does the split. -/
theorem strategyBTasking_left_timeout {α : Type} (comp : α → α → Bool) (cutoff : Nat)
    (c1 : List α) (f1 l1 : Int) (c2 : List α) (f2 l2 result middle1 middle2 : Int) (pivot : α)
    (hcut : ¬ (l1 - f1 + (l2 - f2)) % 2 ^ 64 < (cutoff : Int)) (hswap : ¬ l1 - f1 < l2 - f2)
    (hm : f1 + (l1 - f1).tdiv 2 + (l1 - f1).tmod 2 = middle1)
    (hp : deref c1 middle1 = some pivot)
    (hlb : lower_bound comp c2 f2 l2 pivot = some middle2)
    (hleft : ∀ fuel, strategyBTasking comp cutoff fuel c1 f1 middle1 c2 f2 middle2 result
      = Outcome.timeout) :
    ∀ fuel, strategyBTasking comp cutoff fuel c1 f1 l1 c2 f2 l2 result = Outcome.timeout := by
  intro fuel
  cases fuel with
  | zero => rfl
  | succ fuel =>
    rw [strategyBTasking_split comp cutoff fuel c1 f1 l1 c2 f2 l2 result middle1 middle2 pivot
      hcut hswap hm hp hlb, hleft fuel]

theorem mergeVectors_of_timeout {α : Type} (comp : α → α → Bool) (cutoff fuel : Nat)
    (L R out : List α) (r : Nat)
    (h : strategyBTasking comp cutoff fuel L 0 (L.length : Int) R 0 (R.length : Int) (r : Int)
      = Outcome.timeout) :
    mergeVectors comp cutoff fuel L R out r = Outcome.timeout := by
  unfold mergeVectors apply strategyB
  rw [h]

/-- C1: for cutoff 1 the claim promises a sorted permutation of L followed by R.
On L = [1], R = [] the size test `1 < 1` fails, the pivot position is
`first1 + 1/2 + 1%2 = last1`, and the driver dereferences the end iterator of
L: the call has undefined behaviour for every positive recursion budget and
never returns a merged sequence. -/
theorem apply_cutoff_one_reads_past_end :
    (∀ fuel : Nat, mergeVectors intLess 1 (fuel + 1) [1] [] [0] 0 = Outcome.undefined) ∧
      deref [(1 : Int)] (0 + (1 : Int).tdiv 2 + (1 : Int).tmod 2) = none := by
  constructor
  · intro fuel
    rfl
  · rfl

/-- C5: boundary inputs with cutoff 1.  On (X, empty) and on (empty, X) with
X = [4] the driver (after the operand swap in the second case) reads the
element one past the end of X, so the call has undefined behaviour instead of
leaving X in the output; a longer X = [4, 5] makes the call on `[first1,
first1 + 1)` hand its own arguments to its left task, so it never returns.  Only
the case of two empty inputs behaves as claimed. -/
theorem boundary_cutoff_one_fails :
    (∀ fuel : Nat, mergeVectors intLess 1 (fuel + 1) [4] [] [0] 0 = Outcome.undefined) ∧
    (∀ fuel : Nat, mergeVectors intLess 1 (fuel + 2) [] [4] [0] 0 = Outcome.undefined) ∧
    (∀ fuel : Nat, mergeVectors intLess 1 fuel [4, 5] [] [0, 0] 0 = Outcome.timeout) ∧
    (∀ fuel : Nat, mergeVectors intLess 1 (fuel + 1) [] [] [] 0 = Outcome.done ([], 0)) := by
  refine ⟨fun _ => rfl, fun _ => rfl, ?_, fun _ => rfl⟩
  intro fuel
  have hloop := strategyBTasking_self_call intLess 1 [4, 5] 0 1 [] 0 0 0 5
    (by decide) (by decide) (by decide) (by decide) (by decide)
  exact mergeVectors_of_timeout intLess 1 fuel [4, 5] [] [0, 0] 0
    (strategyBTasking_left_timeout intLess 1 [4, 5] 0 2 [] 0 0 0 1 0 5
      (by decide) (by decide) (by decide) (by decide) (by decide) hloop fuel)

/-- C6: output coverage with cutoff 1.  On L = [1, 3], R = [2] the top call
writes the pivot 3 at position 2 and gives `[result, result + 2)` to its left
task, the call on `[0, 1)` of L and `[0, 1)` of R.  That call reads its pivot at
`first1 + 1 = last1` (the value 3, outside its range), finds rank 1 `= last2`,
so its pivot position is `result + 1 + 1 = 2` again, outside its own output
range and already written by its parent, and its left task is the call itself:
position 2 is written again and again and the merge never returns. -/
theorem coverage_cutoff_one_fails :
    deref [(1 : Int), 3] (0 + ((1 : Int) - 0).tdiv 2 + ((1 : Int) - 0).tmod 2) = some 3 ∧
    lower_bound intLess [2] 0 1 3 = some 1 ∧
    (∀ fuel : Nat, strategyBTasking intLess 1 fuel [1, 3] 0 1 [2] 0 1 0 = Outcome.timeout) ∧
    (∀ fuel : Nat, mergeVectors intLess 1 fuel [1, 3] [2] [0, 0, 0] 0 = Outcome.timeout) := by
  have hloop := strategyBTasking_self_call intLess 1 [1, 3] 0 1 [2] 0 1 0 3
    (by decide) (by decide) (by decide) (by decide) (by decide)
  refine ⟨by decide, by decide, hloop, ?_⟩
  intro fuel
  exact mergeVectors_of_timeout intLess 1 fuel [1, 3] [2] [0, 0, 0] 0
    (strategyBTasking_left_timeout intLess 1 [1, 3] 0 2 [2] 0 1 0 1 1 3
      (by decide) (by decide) (by decide) (by decide) (by decide) hloop fuel)

/-- C7: with cutoff 0 the size test `size1 + size2 < 0` never holds, so the
sequential merge is never reached, and the recursion has no other way out: for
every comparator, input, output container and recursion budget the call does
not return.  On two empty inputs it dereferences `first1` of an empty range; on
L = [1, 2], R = [] the call on `[0, 1)` hands its own arguments to its left task. -/
theorem cutoff_zero_never_returns :
    (∀ (α : Type) (comp : α → α → Bool) (fuel : Nat) (L R out : List α) (r : Nat)
      (res : List α × Int), mergeVectors comp 0 fuel L R out r ≠ Outcome.done res) ∧
    (∀ fuel : Nat, mergeVectors intLess 0 (fuel + 1) [] [] [] 0 = Outcome.undefined) ∧
    (∀ fuel : Nat, mergeVectors intLess 0 fuel [1, 2] [] [0, 0] 0 = Outcome.timeout) := by
  refine ⟨fun α comp fuel L R out r res => mergeVectors_cutoff_zero comp fuel L R out r res,
    fun _ => rfl, ?_⟩
  have hloop := strategyBTasking_self_call intLess 0 [1, 2] 0 1 [] 0 0 0 2
    (by decide) (by decide) (by decide) (by decide) (by decide)
  intro fuel
  exact mergeVectors_of_timeout intLess 0 fuel [1, 2] [] [0, 0] 0
    (strategyBTasking_left_timeout intLess 0 [1, 2] 0 2 [] 0 0 0 1 0 2
      (by decide) (by decide) (by decide) (by decide) (by decide) hloop fuel)

/-- C8: returned position with cutoff 1.  On the whole containers L = [1],
R = [] the call has undefined behaviour and returns no position.  On the range
`[0, 1)` of the container [1, 9] and an empty right range, the pivot is read at
`last1` (the value 9), its rank is 0, so the driver writes at
`result + 1 + 0 = result + |L| + |R|`, the very position `apply` would return,
and then calls itself for ever: `apply` does not return. -/
theorem returned_position_cutoff_one_fails :
    (∀ fuel : Nat, apply intLess 1 (fuel + 1) [1] 0 1 [] 0 0 0 = Outcome.undefined) ∧
    deref [(1 : Int), 9] (0 + ((1 : Int) - 0).tdiv 2 + ((1 : Int) - 0).tmod 2) = some 9 ∧
    lower_bound intLess [] 0 0 9 = some 0 ∧
    (∀ fuel : Nat, apply intLess 1 fuel [1, 9] 0 1 [] 0 0 0 = Outcome.timeout) := by
  refine ⟨fun _ => rfl, by decide, by decide, ?_⟩
  intro fuel
  have hloop := strategyBTasking_self_call intLess 1 [1, 9] 0 1 [] 0 0 0 9
    (by decide) (by decide) (by decide) (by decide) (by decide)
  unfold apply strategyB
  rw [hloop fuel]

/-- C10: merging [1,3,5] and [2,4,6] under `<`.  With cutoff 100 the output is
[1,2,3,4,5,6].  With cutoff 1 the call on `[0, 1)` of L and `[0, 1)` of R, reached
through the left tasks, reads its pivot at `last1`, finds rank `last2` and hands
its own arguments to its left task: the merge never returns. -/
theorem merge_135_246 :
    mergeVectors intLess 100 1 [1, 3, 5] [2, 4, 6] [0, 0, 0, 0, 0, 0] 0
      = Outcome.done ([1, 2, 3, 4, 5, 6], 6) ∧
    (∀ fuel : Nat, mergeVectors intLess 1 fuel [1, 3, 5] [2, 4, 6] [0, 0, 0, 0, 0, 0] 0
      = Outcome.timeout) := by
  refine ⟨rfl, ?_⟩
  have hloop := strategyBTasking_self_call intLess 1 [1, 3, 5] 0 1 [2, 4, 6] 0 1 0 3
    (by decide) (by decide) (by decide) (by decide) (by decide)
  have hleft := strategyBTasking_left_timeout intLess 1 [1, 3, 5] 0 2 [2, 4, 6] 0 2 0 1 1 3
    (by decide) (by decide) (by decide) (by decide) (by decide) hloop
  intro fuel
  exact mergeVectors_of_timeout intLess 1 fuel [1, 3, 5] [2, 4, 6] [0, 0, 0, 0, 0, 0] 0
    (strategyBTasking_left_timeout intLess 1 [1, 3, 5] 0 3 [2, 4, 6] 0 3 0 2 2 5
      (by decide) (by decide) (by decide) (by decide) (by decide) hleft fuel)

/-- C2, as stated, fails: stability is lost when the operands are swapped.
With values compared by `<` and tags ignored, L = [1] and R = [1, 2] (both
sorted), cutoff 3: the call swaps the operands and the output is
[1 of R, 1 of L, 2 of R], where the 1 of R comes before the equivalent 1 of L. -/
theorem stability_counterexample :
    StrictWeakOrder (byValue intLess) ∧
    Sorted (byValue intLess) (tagged false [1]) ∧
    Sorted (byValue intLess) (tagged true [1, 2]) ∧
    ∃ M e, mergeVectors (byValue intLess) 3 8 (tagged false [1]) (tagged true [1, 2])
        [(0, false), (0, false), (0, false)] 0 = Outcome.done (M, e) ∧
      ¬ Stable intLess M := by
  refine ⟨byValue_swo intLess_swo, tagged_sorted false (by unfold Sorted; decide),
    tagged_sorted true (by unfold Sorted; decide),
    [(1, true), (1, false), (2, true)], 3, rfl, ?_⟩
  unfold Stable
  decide

/-- C2, amended: for a strict weak ordering, sorted L and R and a cutoff of at
least 3, the call returns and the elements of each input keep their relative
order in the output (the elements tagged as coming from L are L, in order, and
likewise for R); when `|L| + |R| < cutoff` (sequential merge at the top) no
element of R comes before an equivalent element of L. -/
theorem same_input_order_kept {α : Type} (comp : α → α → Bool)
    (hswo : StrictWeakOrder comp) (cutoff : Nat) (h3 : 3 ≤ cutoff) (L R : List α)
    (hL : Sorted comp L) (hR : Sorted comp R) (out : List (α × Bool)) (r : Nat)
    (hcap : r + (L.length + R.length) ≤ out.length)
    (fuel : Nat) (hfuel : 2 * (L.length + R.length) + 2 ≤ fuel) :
    ∃ M, mergeVectors (byValue comp) cutoff fuel (tagged false L) (tagged true R) out r
        = Outcome.done (out.take r ++ M ++ out.drop (r + (L.length + R.length)),
            (r : Int) + L.length + R.length) ∧
      Sorted (byValue comp) M ∧
      M.filter (fun e => !e.2) = tagged false L ∧ M.filter (fun e => e.2) = tagged true R ∧
      (L.length + R.length < cutoff → Stable comp M) := by
  have hlenL : (tagged false L).length = L.length := by simp [tagged]
  have hlenR : (tagged true R).length = R.length := by simp [tagged]
  have hpL : ∀ x ∈ tagged false L, (fun e : α × Bool => !e.2) x = true := by
    intro x hx
    obtain ⟨a, _, rfl⟩ := List.mem_map.1 hx
    rfl
  have hpR : ∀ y ∈ tagged true R, (fun e : α × Bool => !e.2) y = false := by
    intro y hy
    obtain ⟨a, _, rfl⟩ := List.mem_map.1 hy
    rfl
  have hsL : Sorted (byValue comp) (tagged false L) := tagged_sorted false hL
  have hsR : Sorted (byValue comp) (tagged true R) := tagged_sorted true hR
  obtain ⟨M, hshape, hrun⟩ := mergeVectors_shape (byValue comp) cutoff h3 (tagged false L)
    (tagged true R) out r (by rw [hlenL, hlenR]; exact hcap) fuel
    (by rw [hlenL, hlenR]; exact hfuel)
  rw [hlenL, hlenR] at hrun
  obtain ⟨hf1, hf2⟩ := hshape.filter (fun e => !e.2) hpL hpR
  refine ⟨M, hrun, hshape.sorted (byValue_swo hswo) hsL hsR, hf1, ?_, ?_⟩
  · simpa using hf2
  · intro hlt
    have hfb := mergeVectors_fallback (byValue comp) cutoff (tagged false L) (tagged true R)
      out r (by rw [hlenL, hlenR]; exact hlt) (by rw [hlenL, hlenR]; exact hcap) fuel
      (by omega)
    rw [hlenL, hlenR, hrun] at hfb
    have hM : M = stdMerge (byValue comp) (tagged false L) (tagged true R) := by
      have h1 := congrArg Prod.fst (Outcome.done.inj hfb)
      simp only [List.append_assoc] at h1
      exact List.append_cancel_right (List.append_cancel_left h1)
    have hst := mergeLoop_stable (byValue_swo hswo) (fun e : α × Bool => !e.2)
      ((tagged false L).length + (tagged true R).length) (tagged false L) (tagged true R)
      (Nat.le_refl _) hsL hpL hpR
    rw [hM]
    unfold Stable
    refine List.Pairwise.imp ?_ hst
    intro p q hpq hp hq hequiv
    have := hpq (by simp [hp]) (by simp [hq])
    unfold byValue at this
    rw [hequiv.1] at this
    cases this

/-- Instance of `same_input_order_kept`: L = [1, 1, 2], R = [1, 3] under `<`,
cutoff 6. -/
theorem same_input_order_kept_witness :
    ∃ M, mergeVectors (byValue intLess) 6 12 (tagged false [1, 1, 2]) (tagged true [1, 3])
        (List.replicate 5 (0, false)) 0
        = Outcome.done ((List.replicate 5 ((0 : Int), false)).take 0 ++ M ++
            (List.replicate 5 ((0 : Int), false)).drop (0 + (3 + 2)),
            ((0 : Nat) : Int) + ((3 : Nat) : Int) + ((2 : Nat) : Int)) ∧
      Sorted (byValue intLess) M ∧
      M.filter (fun e => !e.2) = tagged false [1, 1, 2] ∧
      M.filter (fun e => e.2) = tagged true [1, 3] ∧
      ([(1 : Int), 1, 2].length + [(1 : Int), 3].length < 6 → Stable intLess M) :=
  same_input_order_kept intLess intLess_swo 6 (by decide) [1, 1, 2] [1, 3]
    (by unfold Sorted; decide) (by unfold Sorted; decide) (List.replicate 5 (0, false)) 0
    (by decide) 12 (by decide)

/-- C3, as stated, fails: the output depends on the cutoff when equivalent
elements are distinguishable.  With values compared by `<` and tags ignored,
L = [1], R = [1, 2]: cutoff 3 gives [1 of R, 1 of L, 2 of R] and cutoff 100 gives
[1 of L, 1 of R, 2 of R]. -/
theorem cutoff_invariance_counterexample :
    StrictWeakOrder (byValue intLess) ∧
    Sorted (byValue intLess) (tagged false [1]) ∧
    Sorted (byValue intLess) (tagged true [1, 2]) ∧
    mergeVectors (byValue intLess) 3 8 (tagged false [1]) (tagged true [1, 2])
        [(0, false), (0, false), (0, false)] 0
      = Outcome.done ([(1, true), (1, false), (2, true)], 3) ∧
    mergeVectors (byValue intLess) 100 8 (tagged false [1]) (tagged true [1, 2])
        [(0, false), (0, false), (0, false)] 0
      = Outcome.done ([(1, false), (1, true), (2, true)], 3) ∧
    mergeVectors (byValue intLess) 3 8 (tagged false [1]) (tagged true [1, 2])
        [(0, false), (0, false), (0, false)] 0
      ≠ mergeVectors (byValue intLess) 100 8 (tagged false [1]) (tagged true [1, 2])
        [(0, false), (0, false), (0, false)] 0 := by
  refine ⟨byValue_swo intLess_swo, tagged_sorted false (by unfold Sorted; decide),
    tagged_sorted true (by unfold Sorted; decide), rfl, rfl, ?_⟩
  decide

/-- C3, amended: for a strict weak ordering under which equivalent elements are
identical, sorted L and R and any two cutoffs of at least 3, the call returns
with either cutoff and the two results (output container and returned
position) are identical. -/
theorem cutoff_invariance_linear {α : Type} (comp : α → α → Bool)
    (hswo : StrictWeakOrder comp) (hlin : Linear comp) (L R out : List α)
    (hL : Sorted comp L) (hR : Sorted comp R) (c1 c2 : Nat) (h1 : 3 ≤ c1) (h2 : 3 ≤ c2)
    (r : Nat) (hcap : r + (L.length + R.length) ≤ out.length)
    (fuel : Nat) (hfuel : 2 * (L.length + R.length) + 2 ≤ fuel) :
    mergeVectors comp c1 fuel L R out r = mergeVectors comp c2 fuel L R out r ∧
      ∃ res, mergeVectors comp c1 fuel L R out r = Outcome.done res := by
  have e1 := mergeVectors_linear comp hswo hlin c1 h1 L R out hL hR r hcap fuel hfuel
  have e2 := mergeVectors_linear comp hswo hlin c2 h2 L R out hL hR r hcap fuel hfuel
  exact ⟨by rw [e1, e2], _, e1⟩

/-- Instance of `cutoff_invariance_linear`: [1,3,5] and [2,4,6] under `<`, cutoffs
3 and 100. -/
theorem cutoff_invariance_linear_witness :
    mergeVectors intLess 3 14 [1, 3, 5] [2, 4, 6] [0, 0, 0, 0, 0, 0] 0
        = mergeVectors intLess 100 14 [1, 3, 5] [2, 4, 6] [0, 0, 0, 0, 0, 0] 0 ∧
      ∃ res, mergeVectors intLess 3 14 [1, 3, 5] [2, 4, 6] [0, 0, 0, 0, 0, 0] 0
        = Outcome.done res :=
  cutoff_invariance_linear intLess intLess_swo intLess_linear [1, 3, 5] [2, 4, 6]
    [0, 0, 0, 0, 0, 0] (by unfold Sorted; decide) (by unfold Sorted; decide) 3 100
    (by decide) (by decide) 0 (by decide) 14 (by decide)

/-- C4, as stated, fails: with `cutoff = |L| + |R|` the size test
`size1 + size2 < cutoff` is false and the driver recurses.  With values compared
by `<` and tags ignored, L = [1], R = [1, 2], cutoff 3: the output is
[1 of R, 1 of L, 2 of R], whereas `std::merge` gives [1 of L, 1 of R, 2 of R]. -/
theorem cutoff_equal_total_counterexample :
    StrictWeakOrder (byValue intLess) ∧
    Sorted (byValue intLess) (tagged false [1]) ∧
    Sorted (byValue intLess) (tagged true [1, 2]) ∧
    (tagged false [(1 : Int)]).length + (tagged true [(1 : Int), 2]).length = 3 ∧
    ∃ M e, mergeVectors (byValue intLess) 3 8 (tagged false [1]) (tagged true [1, 2])
        [(0, false), (0, false), (0, false)] 0 = Outcome.done (M, e) ∧
      M ≠ stdMerge (byValue intLess) (tagged false [1]) (tagged true [1, 2]) := by
  refine ⟨byValue_swo intLess_swo, tagged_sorted false (by unfold Sorted; decide),
    tagged_sorted true (by unfold Sorted; decide), rfl,
    [(1, true), (1, false), (2, true)], 3, rfl, ?_⟩
  decide

/-- C4, amended: for a strict weak ordering and sorted L and R, the output equals
exactly the output of `std::merge` for every cutoff greater than `|L| + |R|`, and
for `cutoff = |L| + |R|` when the cutoff is at least 3 and equivalent elements
are identical. -/
theorem large_cutoff_eq_stdMerge {α : Type} (comp : α → α → Bool)
    (hswo : StrictWeakOrder comp) (L R out : List α) (hL : Sorted comp L)
    (hR : Sorted comp R) (cutoff : Nat) (_hc : L.length + R.length ≤ cutoff)
    (hd : L.length + R.length < cutoff ∨ (3 ≤ cutoff ∧ Linear comp))
    (r : Nat) (hcap : r + (L.length + R.length) ≤ out.length)
    (fuel : Nat) (hfuel : 2 * (L.length + R.length) + 2 ≤ fuel) :
    mergeVectors comp cutoff fuel L R out r
      = Outcome.done (out.take r ++ stdMerge comp L R ++ out.drop (r + (L.length + R.length)),
          (r : Int) + L.length + R.length) := by
  rcases hd with hlt | ⟨h3, hlin⟩
  · exact mergeVectors_fallback comp cutoff L R out r hlt hcap fuel (by omega)
  · exact mergeVectors_linear comp hswo hlin cutoff h3 L R out hL hR r hcap fuel hfuel

/-- Instance of `large_cutoff_eq_stdMerge`: [1,3,5] and [2,4,6] under `<` with
cutoff 6, the sum of the sizes. -/
theorem large_cutoff_eq_stdMerge_witness :
    mergeVectors intLess 6 14 [1, 3, 5] [2, 4, 6] [0, 0, 0, 0, 0, 0] 0
      = Outcome.done (([0, 0, 0, 0, 0, 0] : List Int).take 0
          ++ stdMerge intLess [1, 3, 5] [2, 4, 6]
          ++ ([0, 0, 0, 0, 0, 0] : List Int).drop (0 + (3 + 3)),
          ((0 : Nat) : Int) + ((3 : Nat) : Int) + ((3 : Nat) : Int)) :=
  large_cutoff_eq_stdMerge intLess intLess_swo [1, 3, 5] [2, 4, 6] [0, 0, 0, 0, 0, 0]
    (by unfold Sorted; decide) (by unfold Sorted; decide) 6 (by decide)
    (Or.inr ⟨by decide, intLess_linear⟩) 0 (by decide) 14 (by decide)

/-- C9: the scenario of the benchmark driver.  With L the 131072 ascending values
from 19, R the 131283 ascending values from 5, the comparator `<`, an output
container of `|L| + |R|` elements and any cutoff with
`1024 ≤ cutoff < |L| + |R|`, the call returns, the returned position is the end
of the output container, and the output has length `|L| + |R|` and passes
`std::is_sorted`. -/
theorem driver_scenario_sorted (cutoff : Nat) (hlo : 1024 ≤ cutoff)
    (_hhi : cutoff < 131072 + 131283) (out : List Int) (hout : out.length = 131072 + 131283)
    (fuel : Nat) (hfuel : 2 * (131072 + 131283) + 2 ≤ fuel) :
    ∃ M, mergeVectors intLess cutoff fuel lhs rhs out 0
        = Outcome.done (M, ((131072 + 131283 : Nat) : Int)) ∧
      M.length = 131072 + 131283 ∧ is_sorted intLess M = true := by
  have hl : lhs.length = 131072 := by unfold lhs; rw [iota_length]
  have hr : rhs.length = 131283 := by unfold rhs; rw [iota_length, hl]
  obtain ⟨M, hrun, hsorted, hperm⟩ := mergeVectors_sorted_perm intLess intLess_swo cutoff
    (by omega) lhs rhs out (iota_sorted _ _) (iota_sorted _ _) 0
    (by omega) fuel (by omega)
  have hlen : M.length = 131072 + 131283 := by
    have := hperm.length_eq
    rw [List.length_append, hl, hr] at this
    exact this
  refine ⟨M, ?_, hlen, is_sorted_of_sorted hsorted⟩
  rw [hrun, hl, hr]
  have hdrop : out.drop (0 + (131072 + 131283)) = [] :=
    List.drop_of_length_le (by omega)
  rw [hdrop, List.take_zero, List.nil_append, List.append_nil]
  congr 2

/-- Instance of `driver_scenario_sorted`: the first cutoff of the loop of the driver,
1024, on a zero-filled output container. -/
theorem driver_scenario_sorted_witness :
    ∃ M, mergeVectors intLess 1024 524712 lhs rhs (List.replicate (131072 + 131283) 0) 0
        = Outcome.done (M, ((131072 + 131283 : Nat) : Int)) ∧
      M.length = 131072 + 131283 ∧ is_sorted intLess M = true :=
  driver_scenario_sorted 1024 (by decide) (by decide) (List.replicate (131072 + 131283) 0)
    (List.length_replicate _ _) 524712 (by decide)

end merging

namespace merging
section fuelIndependence
variable {α : Type}

/-- A call that returns with some recursion budget returns the same writes with
a larger one. -/
theorem strategyBTasking_mono (comp : α → α → Bool) (cutoff : Nat) :
    ∀ (fuel : Nat) (c1 : List α) (f1 l1 : Int) (c2 : List α) (f2 l2 result : Int)
      (ws : List (Int × α)),
      strategyBTasking comp cutoff fuel c1 f1 l1 c2 f2 l2 result = Outcome.done ws →
      strategyBTasking comp cutoff (fuel + 1) c1 f1 l1 c2 f2 l2 result = Outcome.done ws := by
  intro fuel
  induction fuel with
  | zero =>
    intro c1 f1 l1 c2 f2 l2 result ws h
    cases h
  | succ fuel ih =>
    intro c1 f1 l1 c2 f2 l2 result ws h
    rw [strategyBTasking] at h ⊢
    by_cases hcut : (l1 - f1 + (l2 - f2)) % 2 ^ 64 < (cutoff : Int)
    · simp only [hcut, if_true] at h ⊢
      exact h
    · simp only [hcut, if_false] at h ⊢
      by_cases hswap : l1 - f1 < l2 - f2
      · simp only [hswap, if_true] at h ⊢
        exact ih _ _ _ _ _ _ _ ws h
      · simp only [hswap, if_false] at h ⊢
        cases hp : deref c1 (f1 + (l1 - f1).tdiv 2 + (l1 - f1).tmod 2) with
        | none => rw [hp] at h; cases h
        | some pivot =>
          rw [hp] at h
          simp only at h ⊢
          cases hlb : lower_bound comp c2 f2 l2 pivot with
          | none => rw [hlb] at h; cases h
          | some middle2 =>
            rw [hlb] at h
            simp only at h ⊢
            cases hleft : strategyBTasking comp cutoff fuel c1 f1
                (f1 + (l1 - f1).tdiv 2 + (l1 - f1).tmod 2) c2 f2 middle2 result with
            | undefined => rw [hleft] at h; cases h
            | timeout => rw [hleft] at h; cases h
            | done w1 =>
              rw [hleft] at h
              simp only at h
              rw [ih _ _ _ _ _ _ _ w1 hleft]
              simp only
              cases hright : strategyBTasking comp cutoff fuel c1
                  (f1 + (l1 - f1).tdiv 2 + (l1 - f1).tmod 2 + 1) l1 c2 middle2 l2
                  (result + (f1 + (l1 - f1).tdiv 2 + (l1 - f1).tmod 2 - f1) + (middle2 - f2)
                    + 1) with
              | undefined => rw [hright] at h; cases h
              | timeout => rw [hright] at h; cases h
              | done w2 =>
                rw [hright] at h
                rw [ih _ _ _ _ _ _ _ w2 hright]
                exact h

/-- When the left range is the shorter one and the size test does not select
the sequential merge, the call is the call with the operands exchanged. -/
theorem strategyBTasking_swap_eq (comp : α → α → Bool) (cutoff : Nat) (h3 : 3 ≤ cutoff)
    (c1 : List α) (f1 l1 : Int) (c2 : List α) (f2 l2 result : Int)
    (hv1 : validRange c1 f1 l1 = true) (hv2 : validRange c2 f2 l2 = true)
    (hcut : ¬ (l1 - f1 + (l2 - f2)) % 2 ^ 64 < (cutoff : Int)) (hswap : l1 - f1 < l2 - f2)
    (fuel : Nat) (hfuel : 2 * ((l1 - f1) + (l2 - f2)) + 2 ≤ (fuel : Int)) :
    ∃ ws M, strategyBTasking comp cutoff fuel c1 f1 l1 c2 f2 l2 result = Outcome.done ws ∧
      strategyBTasking comp cutoff fuel c2 f2 l2 c1 f1 l1 result = Outcome.done ws ∧
      MergeShape comp (slice c2 f2 l2) (slice c1 f1 l1) M ∧ ws.Perm (writesFrom result M) := by
  obtain ⟨hf1, hfl1, hl1⟩ := (validRange_iff c1 f1 l1).1 hv1
  obtain ⟨hf2, hfl2, hl2⟩ := (validRange_iff c2 f2 l2).1 hv2
  obtain ⟨n, rfl⟩ : ∃ n, fuel = n + 1 := ⟨fuel - 1, by omega⟩
  obtain ⟨ws, M, hrun, hshape, hperm⟩ := strategyBTasking_shape comp cutoff h3 n c2 f2 l2 c1 f1
    l1 result hv2 hv1 (by right; push_cast at hfuel; omega)
  refine ⟨ws, M, ?_, strategyBTasking_mono comp cutoff n _ _ _ _ _ _ _ ws hrun, hshape, hperm⟩
  rw [strategyBTasking]
  simp only [hcut, if_false, hswap, if_true]
  exact hrun

/-- On containers of different sizes whose total size reaches the cutoff, the
call does not depend on the order of the two operands. -/
theorem mergeVectors_swap (comp : α → α → Bool) (cutoff : Nat) (h3 : 3 ≤ cutoff)
    (L R out : List α) (hlt : L.length < R.length) (hc : cutoff ≤ L.length + R.length)
    (hsz : L.length + R.length < 2 ^ 64) (r : Nat)
    (hcap : r + (L.length + R.length) ≤ out.length)
    (fuel : Nat) (hfuel : 2 * (L.length + R.length) + 2 ≤ fuel) :
    mergeVectors comp cutoff fuel L R out r = mergeVectors comp cutoff fuel R L out r ∧
      ∃ res, mergeVectors comp cutoff fuel L R out r = Outcome.done res := by
  have hcut : ¬ ((L.length : Int) - 0 + ((R.length : Int) - 0)) % 2 ^ 64 < (cutoff : Int) := by
    have h1 : (cutoff : Int) ≤ (L.length : Int) + R.length := by exact_mod_cast hc
    have h2 : (L.length : Int) + R.length < 2 ^ 64 := by exact_mod_cast hsz
    omega
  obtain ⟨ws, M, hrun1, hrun2, hshape, hperm⟩ := strategyBTasking_swap_eq comp cutoff h3
    L 0 L.length R 0 R.length r (by rw [validRange_iff]; omega) (by rw [validRange_iff]; omega)
    hcut (by omega) fuel (by omega)
  rw [slice_whole, slice_whole] at hshape
  have hlen := hshape.length_eq
  have hstore := store_of_perm M r out ws hperm (by omega)
  have e1 : mergeVectors comp cutoff fuel L R out r
      = Outcome.done (out.take r ++ M ++ out.drop (r + M.length),
          (r : Int) + L.length + R.length) := by
    unfold mergeVectors apply strategyB
    rw [hrun1]
    simp only [hstore, sub_zero]
  have e2 : mergeVectors comp cutoff fuel R L out r
      = Outcome.done (out.take r ++ M ++ out.drop (r + M.length),
          (r : Int) + L.length + R.length) := by
    unfold mergeVectors apply strategyB
    rw [hrun2]
    simp only [hstore, sub_zero]
    congr 2
    omega
  exact ⟨by rw [e1, e2], _, e1⟩

end fuelIndependence

/-- C11: the overload of `apply` without comparator gives, for every cutoff,
input and recursion budget, the outcome of the general `apply` called with the
order `<` of the element type: the same writes on the output container (hence
the same output) and the same returned position.  For `int` this is the call
with `std::less`. -/
theorem applyLess_eq_apply :
    (∀ (α : Type) (_ : LT α) (_ : DecidableRel (fun a b : α => a < b)) (cutoff fuel : Nat)
      (c1 : List α) (first1 last1 : Int) (c2 : List α) (first2 last2 result : Int),
      applyLess cutoff fuel c1 first1 last1 c2 first2 last2 result
        = apply (fun a b => decide (a < b)) cutoff fuel c1 first1 last1 c2 first2 last2 result) ∧
    (∀ (cutoff fuel : Nat) (c1 : List Int) (first1 last1 : Int) (c2 : List Int)
      (first2 last2 result : Int),
      applyLess cutoff fuel c1 first1 last1 c2 first2 last2 result
        = apply intLess cutoff fuel c1 first1 last1 c2 first2 last2 result) ∧
    applyLess 3 14 [(1 : Int), 3, 5] 0 3 [2, 4, 6] 0 3 0
      = Outcome.done ([(4, 5), (2, 3), (0, 1), (1, 2), (3, 4), (5, 6)], 6) :=
  ⟨fun _ _ _ _ _ _ _ _ _ _ _ _ => rfl, fun _ _ _ _ _ _ _ _ _ => rfl, rfl⟩

/-- C16: the claim places the pivot inside the left range for every cutoff of at
least 1.  With cutoff 2 and L = [7], R = [7] the call reaches the split step
(the size test `2 < 2` fails and no swap takes place) with `size1 = 1`; the pivot
index `size1/2 + size1%2` is 1, which is not less than `size1`, and `*middle1`
reads past the end of L. -/
theorem pivot_out_of_range_cutoff_two :
    ¬ (((1 : Int) - 0 + ((1 : Int) - 0)) % 2 ^ 64 < ((2 : Nat) : Int)) ∧
    ¬ ((1 : Int) - 0 < (1 : Int) - 0) ∧
    ((1 : Int) - 0).tdiv 2 + ((1 : Int) - 0).tmod 2 = (1 : Int) - 0 ∧
    deref [(7 : Int)] (0 + ((1 : Int) - 0).tdiv 2 + ((1 : Int) - 0).tmod 2) = none ∧
    (∀ fuel : Nat, strategyBTasking intLess 2 (fuel + 1) [7] 0 1 [7] 0 1 0
      = Outcome.undefined) ∧
    (∀ fuel : Nat, mergeVectors intLess 2 (fuel + 1) [7] [7] [0, 0] 0 = Outcome.undefined) :=
  ⟨by decide, by decide, by decide, by decide, fun _ => rfl, fun _ => rfl⟩

/-- C17: postcondition of the rank search.  For a range `[first2, last2)` that is
sorted under a strict weak ordering and a pivot `x`, `std::lower_bound` returns a
position `first2 + k` with `0 ≤ k ≤ |R|` such that the `k` elements before it are
`comp`-less than `x` and the elements at or after it are not; on an empty range
it returns `first2`. -/
theorem rank_locator_postcondition {α : Type} (comp : α → α → Bool)
    (hswo : StrictWeakOrder comp) (c : List α) (first2 last2 : Int)
    (hv : validRange c first2 last2 = true) (hs : Sorted comp (slice c first2 last2))
    (x : α) :
    ∃ k : Nat, lower_bound comp c first2 last2 x = some (first2 + (k : Int)) ∧
      k ≤ (slice c first2 last2).length ∧
      (∀ y ∈ (slice c first2 last2).take k, comp y x = true) ∧
      (∀ y ∈ (slice c first2 last2).drop k, comp y x = false) ∧
      (first2 = last2 → k = 0) := by
  obtain ⟨k, hk, hle, hlo, hhi⟩ := lower_bound_sorted hswo x (slice c first2 last2) hs
  refine ⟨k, ?_, hle, hlo, hhi, ?_⟩
  · rw [lower_bound_slice comp c x first2 last2 hv, hk]
    rfl
  · intro he
    subst he
    rw [slice_empty] at hle
    simpa using hle

/-- Instance of `rank_locator_postcondition`: the rank of 5 in [2, 4, 6] is 2. -/
theorem rank_locator_postcondition_witness :
    ∃ k : Nat, lower_bound intLess [2, 4, 6] 0 3 5 = some (0 + (k : Int)) ∧
      k ≤ (slice [(2 : Int), 4, 6] 0 3).length ∧
      (∀ y ∈ (slice [(2 : Int), 4, 6] 0 3).take k, intLess y 5 = true) ∧
      (∀ y ∈ (slice [(2 : Int), 4, 6] 0 3).drop k, intLess y 5 = false) ∧
      ((0 : Int) = 3 → k = 0) :=
  rank_locator_postcondition intLess intLess_swo [2, 4, 6] 0 3 (by decide)
    (by unfold Sorted; decide) 5

/-- C18, as stated, fails: below the cutoff the call is `std::merge`, which puts
the elements of its first operand first among equivalent ones.  With values
compared by `<` and tags ignored, L = [1 tagged false], R = [1 tagged true],
cutoff 3: the output on (L, R) starts with the element of L and the output on
(R, L) with the element of R. -/
theorem operand_order_counterexample :
    StrictWeakOrder (byValue intLess) ∧
    Sorted (byValue intLess) (tagged false [1]) ∧
    Sorted (byValue intLess) (tagged true [1]) ∧
    mergeVectors (byValue intLess) 3 6 (tagged false [1]) (tagged true [1])
        [(0, false), (0, false)] 0 = Outcome.done ([(1, false), (1, true)], 2) ∧
    mergeVectors (byValue intLess) 3 6 (tagged true [1]) (tagged false [1])
        [(0, false), (0, false)] 0 = Outcome.done ([(1, true), (1, false)], 2) ∧
    mergeVectors (byValue intLess) 3 6 (tagged false [1]) (tagged true [1])
        [(0, false), (0, false)] 0
      ≠ mergeVectors (byValue intLess) 3 6 (tagged true [1]) (tagged false [1])
        [(0, false), (0, false)] 0 := by
  refine ⟨byValue_swo intLess_swo, tagged_sorted false (by unfold Sorted; decide),
    tagged_sorted true (by unfold Sorted; decide), rfl, rfl, ?_⟩
  decide

/-- C18, amended: for a strict weak ordering, sorted L and R and a cutoff of at
least 3, the call returns and its result on (L, R) equals its result on (R, L)
when equivalent elements are identical under the comparator, and also when the
two sizes differ and their sum reaches the cutoff (the normalization then
turns both calls into the same recursion). -/
theorem operand_order_irrelevant {α : Type} (comp : α → α → Bool)
    (hswo : StrictWeakOrder comp) (L R out : List α) (hL : Sorted comp L)
    (hR : Sorted comp R) (cutoff : Nat) (h3 : 3 ≤ cutoff)
    (hd : Linear comp ∨
      (L.length ≠ R.length ∧ cutoff ≤ L.length + R.length ∧ L.length + R.length < 2 ^ 64))
    (r : Nat) (hcap : r + (L.length + R.length) ≤ out.length)
    (fuel : Nat) (hfuel : 2 * (L.length + R.length) + 2 ≤ fuel) :
    mergeVectors comp cutoff fuel L R out r = mergeVectors comp cutoff fuel R L out r ∧
      ∃ res, mergeVectors comp cutoff fuel L R out r = Outcome.done res := by
  rcases hd with hlin | ⟨hne, hc, hsz⟩
  · have e1 := mergeVectors_linear comp hswo hlin cutoff h3 L R out hL hR r hcap fuel hfuel
    have e2 := mergeVectors_linear comp hswo hlin cutoff h3 R L out hR hL r (by omega) fuel
      (by omega)
    have hm : stdMerge comp R L = stdMerge comp L R :=
      Sorted.eq_of_perm hlin (stdMerge_sorted hswo hR hL) (stdMerge_sorted hswo hL hR)
        (((stdMerge_perm comp R L).trans List.perm_append_comm).trans
          (stdMerge_perm comp L R).symm)
    refine ⟨?_, _, e1⟩
    rw [e1, e2, hm, Nat.add_comm R.length L.length]
    congr 2
    omega
  · rcases Nat.lt_or_gt_of_ne hne with hlt | hgt
    · exact mergeVectors_swap comp cutoff h3 L R out hlt hc hsz r hcap fuel hfuel
    · obtain ⟨e, res, hres⟩ := mergeVectors_swap comp cutoff h3 R L out hgt (by omega)
        (by omega) r (by omega) fuel (by omega)
      exact ⟨e.symm, res, by rw [← e]; exact hres⟩

/-- Instance of `operand_order_irrelevant`: [1, 3, 5] and [2, 4, 6] under `<`,
cutoff 3. -/
theorem operand_order_irrelevant_witness :
    mergeVectors intLess 3 14 [1, 3, 5] [2, 4, 6] [0, 0, 0, 0, 0, 0] 0
        = mergeVectors intLess 3 14 [2, 4, 6] [1, 3, 5] [0, 0, 0, 0, 0, 0] 0 ∧
      ∃ res, mergeVectors intLess 3 14 [1, 3, 5] [2, 4, 6] [0, 0, 0, 0, 0, 0] 0
        = Outcome.done res :=
  operand_order_irrelevant intLess intLess_swo [1, 3, 5] [2, 4, 6] [0, 0, 0, 0, 0, 0]
    (by unfold Sorted; decide) (by unfold Sorted; decide) 3 (by decide)
    (Or.inl intLess_linear) 0 (by decide) 14 (by decide)

/-- C20: for a strict weak ordering, sorted L and R and every cutoff of at least
3, the call returns and leaves in `result[0 .. |L|+|R|)` a sequence that is
sorted under the comparator and is a permutation of L followed by R (the rest
of the output container is untouched); when equivalent elements are identical
under the comparator, this sequence is exactly the output of `std::merge`. -/
theorem merge_correct_cutoff_three {α : Type} (comp : α → α → Bool)
    (hswo : StrictWeakOrder comp) (cutoff : Nat) (h3 : 3 ≤ cutoff) (L R out : List α)
    (hL : Sorted comp L) (hR : Sorted comp R) (r : Nat)
    (hcap : r + (L.length + R.length) ≤ out.length)
    (fuel : Nat) (hfuel : 2 * (L.length + R.length) + 2 ≤ fuel) :
    ∃ M, mergeVectors comp cutoff fuel L R out r
        = Outcome.done (out.take r ++ M ++ out.drop (r + (L.length + R.length)),
            (r : Int) + L.length + R.length) ∧
      Sorted comp M ∧ M.Perm (L ++ R) ∧ (Linear comp → M = stdMerge comp L R) := by
  obtain ⟨M, hshape, hrun⟩ := mergeVectors_shape comp cutoff h3 L R out r hcap fuel hfuel
  exact ⟨M, hrun, hshape.sorted hswo hL hR, hshape.perm,
    fun hlin => hshape.eq_stdMerge hswo hlin hL hR⟩

/-- Instance of `merge_correct_cutoff_three`: [1, 3, 5] and [2, 4, 6] under `<`,
cutoff 3. -/
theorem merge_correct_cutoff_three_witness :
    ∃ M, mergeVectors intLess 3 14 [1, 3, 5] [2, 4, 6] [0, 0, 0, 0, 0, 0] 0
        = Outcome.done (([0, 0, 0, 0, 0, 0] : List Int).take 0 ++ M
            ++ ([0, 0, 0, 0, 0, 0] : List Int).drop (0 + (3 + 3)),
            ((0 : Nat) : Int) + ((3 : Nat) : Int) + ((3 : Nat) : Int)) ∧
      Sorted intLess M ∧ M.Perm ([1, 3, 5] ++ [2, 4, 6]) ∧
      (Linear intLess → M = stdMerge intLess [1, 3, 5] [2, 4, 6]) :=
  merge_correct_cutoff_three intLess intLess_swo 3 (by decide) [1, 3, 5] [2, 4, 6]
    [0, 0, 0, 0, 0, 0] (by unfold Sorted; decide) (by unfold Sorted; decide) 0 (by decide)
    14 (by decide)

end merging

namespace exercice1

theorem not_hasRun_nil {α : Type} (n : Nat) (hn : 1 ≤ n) : ¬ HasRun n ([] : List α) := by
  rintro ⟨a, h⟩
  have := List.eq_nil_of_infix_nil h
  cases n with
  | zero => omega
  | succ m => simp [List.replicate_succ] at this

section lists
variable {α : Type} [DecidableEq α]

theorem Count_eq_takeWhile (val : α) (l : List α) :
    Count val l = (l.takeWhile (fun x => decide (x = val))).length := by
  induction l with
  | nil => rfl
  | cons x l ih =>
    by_cases h : x = val
    · simp [Count, List.takeWhile_cons, h, ih, Nat.add_comm]
    · simp [Count, List.takeWhile_cons, h]

theorem replicate_prefix_iff (val : α) :
    ∀ (l : List α) (n : Nat), List.replicate n val <+: l ↔ n ≤ Count val l := by
  intro l
  induction l with
  | nil =>
    intro n
    cases n with
    | zero => simp [Count]
    | succ m => simp [Count, List.replicate_succ]
  | cons x l ih =>
    intro n
    cases n with
    | zero => simp
    | succ m =>
      rw [List.replicate_succ, List.cons_prefix_cons, ih m]
      by_cases h : x = val
      · simp only [Count, h, if_true]
        constructor
        · intro hm; omega
        · intro hm; exact ⟨trivial, by omega⟩
      · simp only [Count, h, if_false]
        constructor
        · intro hm; exact absurd hm.1.symm h
        · intro hm; omega

theorem hasRun_cons (n : Nat) (hn : 1 ≤ n) (x : α) (l : List α) :
    HasRun n (x :: l) ↔ n ≤ Count x (x :: l) ∨ HasRun n l := by
  obtain ⟨m, rfl⟩ : ∃ m, n = m + 1 := ⟨n - 1, by omega⟩
  constructor
  · rintro ⟨a, h⟩
    rcases List.infix_cons_iff.1 h with hp | hi
    · left
      have hax : a = x := by
        rw [List.replicate_succ, List.cons_prefix_cons] at hp
        exact hp.1
      subst hax
      exact (replicate_prefix_iff a (a :: l) (m + 1)).1 hp
    · right
      exact ⟨a, hi⟩
  · rintro (h | ⟨a, h⟩)
    · exact ⟨x, ((replicate_prefix_iff x (x :: l) (m + 1)).2 h).isInfix⟩
    · exact ⟨a, List.infix_cons_iff.2 (Or.inr h)⟩

theorem Found_zero_or_one (n : Nat) (l : List α) :
    Found_N_Length_Subset n l = 0 ∨ Found_N_Length_Subset n l = 1 := by
  induction l with
  | nil =>
    unfold Found_N_Length_Subset
    by_cases h : n = 0 <;> simp [h]
  | cons x l ih =>
    cases l with
    | nil =>
      unfold Found_N_Length_Subset
      by_cases h : n = 1 <;> simp [h]
    | cons y rest =>
      unfold Found_N_Length_Subset
      by_cases h : Count x (x :: y :: rest) ≥ n
      · simp [h]
      · simp only [h, if_false]
        exact ih

/-- For `n ≥ 1` the template answers 1 exactly on the lists that contain `n`
equal elements at adjacent positions. -/
theorem Found_eq_one_iff (n : Nat) (hn : 1 ≤ n) (l : List α) :
    Found_N_Length_Subset n l = 1 ↔ HasRun n l := by
  induction l with
  | nil =>
    unfold Found_N_Length_Subset
    have h0 : n ≠ 0 := by omega
    simp only [h0, if_false]
    constructor
    · intro h; cases h
    · intro h; exact absurd h (not_hasRun_nil n hn)
  | cons x l ih =>
    rw [hasRun_cons n hn]
    cases l with
    | nil =>
      unfold Found_N_Length_Subset
      have hc : Count x [x] = 1 := by simp [Count]
      rw [hc]
      constructor
      · intro h
        left
        by_cases h1 : n = 1
        · omega
        · simp [h1] at h
      · rintro (h | h)
        · have h1 : n = 1 := by omega
          simp [h1]
        · exact absurd h (not_hasRun_nil n hn)
    | cons y rest =>
      unfold Found_N_Length_Subset
      by_cases h : Count x (x :: y :: rest) ≥ n
      · rw [if_pos h]
        exact ⟨fun _ => Or.inl h, fun _ => rfl⟩
      · rw [if_neg h, ih]
        constructor
        · intro hr; exact Or.inr hr
        · rintro (hc | hr)
          · exact absurd hc h
          · exact hr

theorem current_run_eq (first : α) (rest : List α) :
    Longest_Subset.current_run first rest
      = 1 + (rest.takeWhile (fun b => decide (b = first))).length := by
  induction rest generalizing first with
  | nil => rfl
  | cons second rest ih =>
    unfold Longest_Subset.current_run
    by_cases h : first = second
    · subst h
      simp [ih, List.takeWhile_cons, Nat.add_comm]
    · have h2 : ¬ second = first := fun e => h e.symm
      simp [h, h2, List.takeWhile_cons]

theorem runLengthAt_zero (a : α) (l : List α) :
    runLengthAt (a :: l) 0 = 1 + (l.takeWhile (fun b => decide (b = a))).length := rfl

theorem runLengthAt_succ (a : α) (l : List α) (i : Nat) :
    runLengthAt (a :: l) (i + 1) = runLengthAt l i := rfl

theorem longestRun_cons (a : α) (l : List α) :
    longestRun (a :: l) = max (runLengthAt (a :: l) 0) (longestRun l) := by
  unfold longestRun
  rw [List.length_cons, List.range_succ_eq_map, List.map_cons, List.foldr_cons, List.map_map]
  rfl

theorem Longest_Subset_value_eq (l : List α) : Longest_Subset.value l = longestRun l := by
  induction l with
  | nil => rfl
  | cons x l ih =>
    cases l with
    | nil => rfl
    | cons y rest =>
      have hv : Longest_Subset.value (x :: y :: rest)
          = if Longest_Subset.current_run x (y :: rest) > Longest_Subset.value (y :: rest)
            then Longest_Subset.current_run x (y :: rest)
            else Longest_Subset.value (y :: rest) := rfl
      rw [hv, longestRun_cons, ← ih, runLengthAt_zero, ← current_run_eq]
      by_cases h : Longest_Subset.current_run x (y :: rest) > Longest_Subset.value (y :: rest)
      · simp only [h, if_true]
        exact (Nat.max_eq_left (Nat.le_of_lt h)).symm
      · simp only [h, if_false]
        exact (Nat.max_eq_right (Nat.le_of_not_lt h)).symm

end lists

/-- C12: `Longest_Subset<T, list...>::value` is the length of the longest run of
consecutive equal elements of the list, that is the maximum over all positions
of the length of the block of equal adjacent elements starting there: 0 for
the empty list, 1 for a list of one element, and 3 for 0,1,0,0,1,1,1,0. -/
theorem Longest_Subset_is_longest_run :
    (∀ (α : Type) (_ : DecidableEq α) (l : List α), Longest_Subset.value l = longestRun l) ∧
    Longest_Subset.value ([] : List Int) = 0 ∧
    (∀ a : Int, Longest_Subset.value [a] = 1) ∧
    Longest_Subset.value [(0 : Int), 1, 0, 0, 1, 1, 1, 0] = 3 :=
  ⟨fun _ _ l => Longest_Subset_value_eq l, rfl, fun _ => rfl, by decide⟩

/-- C13: for `n ≥ 1`, `Found_N_Length_Subset<T, n, list...>::Yes` is 1 if the list
contains a run of at least `n` consecutive equal elements and 0 otherwise. -/
theorem Found_iff_run {α : Type} [DecidableEq α] (n : Nat) (hn : 1 ≤ n) (l : List α) :
    (HasRun n l → Found_N_Length_Subset n l = 1) ∧
      (¬ HasRun n l → Found_N_Length_Subset n l = 0) := by
  refine ⟨(Found_eq_one_iff n hn l).2, fun h => ?_⟩
  rcases Found_zero_or_one n l with h0 | h1
  · exact h0
  · exact absurd ((Found_eq_one_iff n hn l).1 h1) h

/-- Instance of `Found_iff_run` with the inputs of the test program: `n = 2` on
a,b,a,a (a run exists), together with the three printed values. -/
theorem Found_iff_run_witness :
    ((HasRun 2 ['a', 'b', 'a', 'a'] → Found_N_Length_Subset 2 ['a', 'b', 'a', 'a'] = 1) ∧
      (¬ HasRun 2 ['a', 'b', 'a', 'a'] → Found_N_Length_Subset 2 ['a', 'b', 'a', 'a'] = 0)) ∧
    Found_N_Length_Subset 1 [(3 : Int)] = 1 ∧
    Found_N_Length_Subset 2 ['a', 'b', 'a'] = 0 ∧
    Found_N_Length_Subset 2 ['a', 'b', 'a', 'a'] = 1 ∧
    Found_N_Length_Subset 1 ([] : List Int) = 0 :=
  ⟨Found_iff_run 2 (by decide) ['a', 'b', 'a', 'a'], by decide, by decide, by decide,
    by decide⟩

/-- C14: the claim (and the comment of the base case) says that a zero-length
subset always exists, but for `n = 0` and a list of one element the
specialisation `<T, n, first>` is selected and gives `Yes = (n == 1) = 0`.  The
empty list and the lists of two or more elements give 1. -/
theorem Found_zero_single_element :
    Found_N_Length_Subset 0 [(3 : Int)] = 0 ∧
    (∀ a : Int, Found_N_Length_Subset 0 [a] = 0) ∧
    Found_N_Length_Subset 0 ([] : List Int) = 1 ∧
    (∀ (a b : Int) (rest : List Int), Found_N_Length_Subset 0 (a :: b :: rest) = 1) := by
  refine ⟨rfl, fun _ => rfl, rfl, ?_⟩
  intro a b rest
  unfold Found_N_Length_Subset
  simp

/-- C15: `Count<T, val, list...>::value` is the number of consecutive occurrences
of `val` at the front of the list: it is the length of the longest prefix whose
elements all equal `val` (`n` copies of `val` are a prefix exactly when
`n ≤ value`), 0 for the empty list and 0 when the first element differs from
`val`; the test program values are 0, 1 and 2. -/
theorem Count_is_leading_run :
    (∀ (α : Type) (_ : DecidableEq α) (val : α) (l : List α),
      Count val l = (l.takeWhile (fun x => decide (x = val))).length ∧
      (∀ n, List.replicate n val <+: l ↔ n ≤ Count val l)) ∧
    (∀ (α : Type) (_ : DecidableEq α) (val : α), Count val ([] : List α) = 0) ∧
    (∀ (α : Type) (_ : DecidableEq α) (val first : α) (rest : List α),
      first ≠ val → Count val (first :: rest) = 0) ∧
    Count (5 : Int) [] = 0 ∧ Count 'a' ['a'] = 1 ∧ Count (5 : Int) [5, 5, 6] = 2 := by
  refine ⟨fun α _ val l => ⟨Count_eq_takeWhile val l, replicate_prefix_iff val l⟩,
    fun _ _ _ => rfl, ?_, rfl, by decide, by decide⟩
  intro α _ val first rest h
  simp [Count, h]

/-- C19, as stated, fails: on a,b,a the value `a` occurs twice, but
`Found_N_Length_Subset<char, 2, 'a', 'b', 'a'>::Yes` is 0, because `Count` only
counts the occurrences at the front of the remaining list. -/
theorem Found_counts_runs_counterexample :
    2 ≤ ['a', 'b', 'a'].length ∧ 2 ≤ List.count 'a' ['a', 'b', 'a'] ∧
      Found_N_Length_Subset 2 ['a', 'b', 'a'] ≠ 1 := by
  decide

/-- C19, amended: for every `n` and every list of at least two elements, `Yes` is
1 exactly when some value occurs at `n` adjacent positions of the list (a run
of at least `n` consecutive equal elements). -/
theorem Found_iff_run_of_two {α : Type} [DecidableEq α] (n : Nat) (l : List α)
    (hl : 2 ≤ l.length) : Found_N_Length_Subset n l = 1 ↔ HasRun n l := by
  cases n with
  | zero =>
    match l, hl with
    | a :: b :: rest, _ =>
      constructor
      · intro _
        exact ⟨a, by simp⟩
      · intro _
        unfold Found_N_Length_Subset
        simp
  | succ m => exact Found_eq_one_iff (m + 1) (by omega) l

/-- Instance of `Found_iff_run_of_two`: `n = 2` on a,b,a. -/
theorem Found_iff_run_of_two_witness :
    Found_N_Length_Subset 2 ['a', 'b', 'a'] = 1 ↔ HasRun 2 ['a', 'b', 'a'] :=
  Found_iff_run_of_two 2 ['a', 'b', 'a'] (by decide)

end exercice1

namespace pearson

theorem AverageReducer.average_loop_spec (k : Nat) : ∀ (self : AverageReducer) (i : Nat),
    (self.loop i k).x = self.x ∧ (self.loop i k).y = self.y ∧
      (self.loop i k).sum_x = self.sum_x + ∑ j ∈ Finset.range k, self.x (i + j) ∧
      (self.loop i k).sum_y = self.sum_y + ∑ j ∈ Finset.range k, self.y (i + j) := by
  induction k with
  | zero => intro self i; simp [AverageReducer.loop]
  | succ k ih =>
    intro self i
    obtain ⟨h1, h2, h3, h4⟩ := ih
      { self with sum_x := self.sum_x + self.x i, sum_y := self.sum_y + self.y i } (i + 1)
    refine ⟨h1, h2, ?_, ?_⟩
    · rw [AverageReducer.loop, h3, Finset.sum_range_succ']
      simp only [Nat.add_zero]
      have : ∀ j, i + 1 + j = i + (j + 1) := fun j => by omega
      simp only [this]
      ring
    · rw [AverageReducer.loop, h4, Finset.sum_range_succ']
      simp only [Nat.add_zero]
      have : ∀ j, i + 1 + j = i + (j + 1) := fun j => by omega
      simp only [this]
      ring

theorem AverageReducer.average_reduce_spec (t : Schedule) : ∀ (body : AverageReducer) (start : Nat),
    (body.reduce t start).x = body.x ∧ (body.reduce t start).y = body.y ∧
      (body.reduce t start).sum_x = body.sum_x + ∑ j ∈ Finset.range t.size, body.x (start + j) ∧
      (body.reduce t start).sum_y
        = body.sum_y + ∑ j ∈ Finset.range t.size, body.y (start + j) := by
  induction t with
  | leaf len =>
    intro body start
    have := AverageReducer.average_loop_spec len body start
    simpa [AverageReducer.reduce, AverageReducer.call, Schedule.size] using this
  | seq l r ihl ihr =>
    intro body start
    obtain ⟨l1, l2, l3, l4⟩ := ihl body start
    obtain ⟨r1, r2, r3, r4⟩ := ihr (body.reduce l start) (start + l.size)
    simp only [AverageReducer.reduce, Schedule.size]
    refine ⟨r1.trans l1, r2.trans l2, ?_, ?_⟩
    · rw [r3, l3, l1, Finset.sum_range_add]
      simp only [Nat.add_assoc]
      ring
    · rw [r4, l4, l2, Finset.sum_range_add]
      simp only [Nat.add_assoc]
      ring
  | fork l r ihl ihr =>
    intro body start
    obtain ⟨l1, l2, l3, l4⟩ := ihl body start
    obtain ⟨r1, r2, r3, r4⟩ := ihr (AverageReducer.split body) (start + l.size)
    simp only [AverageReducer.reduce, Schedule.size, AverageReducer.join]
    refine ⟨l1, l2, ?_, ?_⟩
    · rw [r3, l3, Finset.sum_range_add]
      simp only [AverageReducer.split, Nat.add_assoc]
      ring
    · rw [r4, l4, Finset.sum_range_add]
      simp only [AverageReducer.split, Nat.add_assoc]
      ring

theorem PearsonReducer.pearson_loop_spec (k : Nat) : ∀ (self : PearsonReducer) (i : Nat),
    (self.loop i k).x = self.x ∧ (self.loop i k).y = self.y ∧
      (self.loop i k).avg_x = self.avg_x ∧ (self.loop i k).avg_y = self.avg_y ∧
      (self.loop i k).tot_xx = self.tot_xx + ∑ j ∈ Finset.range k,
        (self.x (i + j) - self.avg_x) * (self.x (i + j) - self.avg_x) ∧
      (self.loop i k).tot_xy = self.tot_xy + ∑ j ∈ Finset.range k,
        (self.x (i + j) - self.avg_x) * (self.y (i + j) - self.avg_y) ∧
      (self.loop i k).tot_yy = self.tot_yy + ∑ j ∈ Finset.range k,
        (self.y (i + j) - self.avg_y) * (self.y (i + j) - self.avg_y) := by
  induction k with
  | zero => intro self i; simp [PearsonReducer.loop]
  | succ k ih =>
    intro self i
    obtain ⟨h1, h2, h3, h4, h5, h6, h7⟩ := ih
      { self with
        tot_xx := self.tot_xx + (self.x i - self.avg_x) * (self.x i - self.avg_x),
        tot_xy := self.tot_xy + (self.x i - self.avg_x) * (self.y i - self.avg_y),
        tot_yy := self.tot_yy + (self.y i - self.avg_y) * (self.y i - self.avg_y) } (i + 1)
    have hidx : ∀ j, i + 1 + j = i + (j + 1) := fun j => by omega
    refine ⟨h1, h2, h3, h4, ?_, ?_, ?_⟩
    · rw [PearsonReducer.loop]
      rw [h5, Finset.sum_range_succ']
      simp only [Nat.add_zero, hidx]
      ring
    · rw [PearsonReducer.loop]
      rw [h6, Finset.sum_range_succ']
      simp only [Nat.add_zero, hidx]
      ring
    · rw [PearsonReducer.loop]
      rw [h7, Finset.sum_range_succ']
      simp only [Nat.add_zero, hidx]
      ring

theorem PearsonReducer.pearson_reduce_spec (t : Schedule) : ∀ (body : PearsonReducer) (start : Nat),
    (body.reduce t start).x = body.x ∧ (body.reduce t start).y = body.y ∧
      (body.reduce t start).avg_x = body.avg_x ∧ (body.reduce t start).avg_y = body.avg_y ∧
      (body.reduce t start).tot_xx = body.tot_xx + ∑ j ∈ Finset.range t.size,
        (body.x (start + j) - body.avg_x) * (body.x (start + j) - body.avg_x) ∧
      (body.reduce t start).tot_xy = body.tot_xy + ∑ j ∈ Finset.range t.size,
        (body.x (start + j) - body.avg_x) * (body.y (start + j) - body.avg_y) ∧
      (body.reduce t start).tot_yy = body.tot_yy + ∑ j ∈ Finset.range t.size,
        (body.y (start + j) - body.avg_y) * (body.y (start + j) - body.avg_y) := by
  induction t with
  | leaf len =>
    intro body start
    have := PearsonReducer.pearson_loop_spec len body start
    simpa [PearsonReducer.reduce, PearsonReducer.call, Schedule.size] using this
  | seq l r ihl ihr =>
    intro body start
    obtain ⟨l1, l2, l3, l4, l5, l6, l7⟩ := ihl body start
    obtain ⟨r1, r2, r3, r4, r5, r6, r7⟩ := ihr (body.reduce l start) (start + l.size)
    simp only [PearsonReducer.reduce, Schedule.size]
    refine ⟨r1.trans l1, r2.trans l2, r3.trans l3, r4.trans l4, ?_, ?_, ?_⟩
    · rw [r5, l5, l1, l3, Finset.sum_range_add]
      simp only [Nat.add_assoc]
      ring
    · rw [r6, l6, l1, l2, l3, l4, Finset.sum_range_add]
      simp only [Nat.add_assoc]
      ring
    · rw [r7, l7, l2, l4, Finset.sum_range_add]
      simp only [Nat.add_assoc]
      ring
  | fork l r ihl ihr =>
    intro body start
    obtain ⟨l1, l2, l3, l4, l5, l6, l7⟩ := ihl body start
    obtain ⟨r1, r2, r3, r4, r5, r6, r7⟩ := ihr (PearsonReducer.split body) (start + l.size)
    simp only [PearsonReducer.reduce, Schedule.size, PearsonReducer.join]
    refine ⟨l1, l2, l3, l4, ?_, ?_, ?_⟩
    · rw [r5, l5, Finset.sum_range_add]
      simp only [PearsonReducer.split, Nat.add_assoc]
      ring
    · rw [r6, l6, Finset.sum_range_add]
      simp only [PearsonReducer.split, Nat.add_assoc]
      ring
    · rw [r7, l7, Finset.sum_range_add]
      simp only [PearsonReducer.split, Nat.add_assoc]
      ring

theorem Schedule.size_ofParts : ∀ parts : List Nat, (Schedule.ofParts parts).size = parts.sum
  | [] => rfl
  | [len] => by simp [Schedule.ofParts, Schedule.size]
  | len :: next :: rest => by
    have ih := Schedule.size_ofParts (next :: rest)
    rw [Schedule.ofParts, Schedule.size, ih]
    simp [Schedule.size]

/-- C23: parallel reduction in exact arithmetic.  Whatever the way the range
`[0, n)` is cut into consecutive sub-ranges, handled by the body itself or by
freshly split bodies that are joined, and in particular for every partition
into consecutive sub-ranges each reduced by a freshly split body,
`AverageReducer` ends with the `sum_x` and `sum_y`, and `PearsonReducer` with the
`tot_xx`, `tot_xy` and `tot_yy`, of a single reducer run over the whole range. -/
theorem parallel_reduce_eq_single_run :
    (∀ (x y : Nat → ℚ) (t : Schedule),
      ((AverageReducer.new x y).reduce t 0).sum_x
          = ((AverageReducer.new x y).call 0 t.size).sum_x ∧
      ((AverageReducer.new x y).reduce t 0).sum_y
          = ((AverageReducer.new x y).call 0 t.size).sum_y) ∧
    (∀ (x y : Nat → ℚ) (avg_x avg_y : ℚ) (t : Schedule),
      ((PearsonReducer.new x y avg_x avg_y).reduce t 0).tot_xx
          = ((PearsonReducer.new x y avg_x avg_y).call 0 t.size).tot_xx ∧
      ((PearsonReducer.new x y avg_x avg_y).reduce t 0).tot_xy
          = ((PearsonReducer.new x y avg_x avg_y).call 0 t.size).tot_xy ∧
      ((PearsonReducer.new x y avg_x avg_y).reduce t 0).tot_yy
          = ((PearsonReducer.new x y avg_x avg_y).call 0 t.size).tot_yy) ∧
    (∀ (x y : Nat → ℚ) (parts : List Nat),
      ((AverageReducer.new x y).reduce (Schedule.ofParts parts) 0).sum_x
          = ((AverageReducer.new x y).call 0 parts.sum).sum_x ∧
      ((AverageReducer.new x y).reduce (Schedule.ofParts parts) 0).sum_y
          = ((AverageReducer.new x y).call 0 parts.sum).sum_y) ∧
    (∀ (x y : Nat → ℚ) (avg_x avg_y : ℚ) (parts : List Nat),
      ((PearsonReducer.new x y avg_x avg_y).reduce (Schedule.ofParts parts) 0).tot_xx
          = ((PearsonReducer.new x y avg_x avg_y).call 0 parts.sum).tot_xx ∧
      ((PearsonReducer.new x y avg_x avg_y).reduce (Schedule.ofParts parts) 0).tot_xy
          = ((PearsonReducer.new x y avg_x avg_y).call 0 parts.sum).tot_xy ∧
      ((PearsonReducer.new x y avg_x avg_y).reduce (Schedule.ofParts parts) 0).tot_yy
          = ((PearsonReducer.new x y avg_x avg_y).call 0 parts.sum).tot_yy) := by
  have hA : ∀ (x y : Nat → ℚ) (t : Schedule),
      ((AverageReducer.new x y).reduce t 0).sum_x
          = ((AverageReducer.new x y).call 0 t.size).sum_x ∧
      ((AverageReducer.new x y).reduce t 0).sum_y
          = ((AverageReducer.new x y).call 0 t.size).sum_y := by
    intro x y t
    obtain ⟨_, _, a3, a4⟩ := AverageReducer.average_reduce_spec t (AverageReducer.new x y) 0
    obtain ⟨_, _, b3, b4⟩ := AverageReducer.average_loop_spec t.size (AverageReducer.new x y) 0
    rw [AverageReducer.call, Nat.sub_zero, a3, a4, b3, b4]
    exact ⟨rfl, rfl⟩
  have hP : ∀ (x y : Nat → ℚ) (avg_x avg_y : ℚ) (t : Schedule),
      ((PearsonReducer.new x y avg_x avg_y).reduce t 0).tot_xx
          = ((PearsonReducer.new x y avg_x avg_y).call 0 t.size).tot_xx ∧
      ((PearsonReducer.new x y avg_x avg_y).reduce t 0).tot_xy
          = ((PearsonReducer.new x y avg_x avg_y).call 0 t.size).tot_xy ∧
      ((PearsonReducer.new x y avg_x avg_y).reduce t 0).tot_yy
          = ((PearsonReducer.new x y avg_x avg_y).call 0 t.size).tot_yy := by
    intro x y avg_x avg_y t
    obtain ⟨_, _, _, _, a5, a6, a7⟩ :=
      PearsonReducer.pearson_reduce_spec t (PearsonReducer.new x y avg_x avg_y) 0
    obtain ⟨_, _, _, _, b5, b6, b7⟩ :=
      PearsonReducer.pearson_loop_spec t.size (PearsonReducer.new x y avg_x avg_y) 0
    rw [PearsonReducer.call, Nat.sub_zero, a5, a6, a7, b5, b6, b7]
    exact ⟨rfl, rfl, rfl⟩
  refine ⟨hA, hP, ?_, ?_⟩
  · intro x y parts
    have := hA x y (Schedule.ofParts parts)
    rw [Schedule.size_ofParts] at this
    exact this
  · intro x y avg_x avg_y parts
    have := hP x y avg_x avg_y (Schedule.ofParts parts)
    rw [Schedule.size_ofParts] at this
    exact this

end pearson


namespace merging

/-- The two strategies are the same computation: for every recursion budget they
have the same outcome. -/
theorem strategyA_eq_strategyBTasking {α : Type} (comp : α → α → Bool) (cutoff : Nat) :
    ∀ (fuel : Nat) (c1 : List α) (f1 l1 : Int) (c2 : List α) (f2 l2 result : Int),
      strategyA comp cutoff fuel c1 f1 l1 c2 f2 l2 result
        = strategyBTasking comp cutoff fuel c1 f1 l1 c2 f2 l2 result := by
  intro fuel
  induction fuel with
  | zero => intro c1 f1 l1 c2 f2 l2 result; rfl
  | succ fuel ih =>
    intro c1 f1 l1 c2 f2 l2 result
    rw [strategyA, strategyBTasking]
    simp only [ih]

/-- C24: `strategyA` and `strategyBTasking` (reached through `strategyB`) are
equivalent: for every comparator, cutoff, pair of input ranges, output position
and recursion budget they have the same outcome, that is they return the same
list of writes in the same order (hence leave the same contents in the output
container), or both run into the same undefined operation, or both exceed the
budget; on [1,3,5] and [2,4,6] with cutoff 3 both return the same six writes. -/
theorem strategyA_equivalent_strategyB :
    (∀ (α : Type) (comp : α → α → Bool) (cutoff fuel : Nat) (c1 : List α) (first1 last1 : Int)
      (c2 : List α) (first2 last2 result : Int),
      strategyA comp cutoff fuel c1 first1 last1 c2 first2 last2 result
        = strategyB comp cutoff fuel c1 first1 last1 c2 first2 last2 result) ∧
    (∀ (α : Type) (comp : α → α → Bool) (cutoff fuel : Nat) (c1 : List α) (first1 last1 : Int)
      (c2 : List α) (first2 last2 result : Int) (out : List α),
      (match strategyA comp cutoff fuel c1 first1 last1 c2 first2 last2 result with
        | Outcome.done ws => store out ws
        | Outcome.undefined => none
        | Outcome.timeout => none)
      = (match strategyB comp cutoff fuel c1 first1 last1 c2 first2 last2 result with
        | Outcome.done ws => store out ws
        | Outcome.undefined => none
        | Outcome.timeout => none)) ∧
    strategyA intLess 3 14 [1, 3, 5] 0 3 [2, 4, 6] 0 3 0
      = Outcome.done [(4, 5), (2, 3), (0, 1), (1, 2), (3, 4), (5, 6)] ∧
    strategyB intLess 3 14 [1, 3, 5] 0 3 [2, 4, 6] 0 3 0
      = Outcome.done [(4, 5), (2, 3), (0, 1), (1, 2), (3, 4), (5, 6)] := by
  have h : ∀ (α : Type) (comp : α → α → Bool) (cutoff fuel : Nat) (c1 : List α)
      (first1 last1 : Int) (c2 : List α) (first2 last2 result : Int),
      strategyA comp cutoff fuel c1 first1 last1 c2 first2 last2 result
        = strategyB comp cutoff fuel c1 first1 last1 c2 first2 last2 result := by
    intro α comp cutoff fuel c1 first1 last1 c2 first2 last2 result
    unfold strategyB
    exact strategyA_eq_strategyBTasking comp cutoff fuel c1 first1 last1 c2 first2 last2 result
  refine ⟨h, ?_, rfl, rfl⟩
  intro α comp cutoff fuel c1 first1 last1 c2 first2 last2 result out
  rw [h]

/-- C21: bounds and termination for a cutoff of at least 3.  For every call of
the driver on valid ranges: when the size test does not select the sequential
merge, either the call swaps its operands, and then the call it makes is not a
swap again (its left size is at least 2 and its total size is unchanged), or it
splits, and then the left size is at least 2, the pivot index
`m = size1/2 + size1%2` satisfies `1 ≤ m ≤ size1 - 1`, the pivot is read inside
the left range, the rank lies in `[first2, last2]`, the two sub-calls get valid
ranges whose sizes add up to `size1 + size2 - 1`, each total being strictly
smaller than that of the call; and in every case the call returns once the
recursion budget is at least `2 (size1 + size2) + 2`, whatever the comparator
and the contents of the ranges. -/
theorem recursion_bounds_cutoff_three {α : Type} (comp : α → α → Bool) (cutoff : Nat)
    (h3 : 3 ≤ cutoff) (c1 : List α) (f1 l1 : Int) (c2 : List α) (f2 l2 result : Int)
    (hv1 : validRange c1 f1 l1 = true) (hv2 : validRange c2 f2 l2 = true) :
    (¬ (l1 - f1 + (l2 - f2)) % 2 ^ 64 < (cutoff : Int) →
      (l1 - f1 < l2 - f2 →
        (∀ fuel, strategyBTasking comp cutoff (fuel + 1) c1 f1 l1 c2 f2 l2 result
          = strategyBTasking comp cutoff fuel c2 f2 l2 c1 f1 l1 result) ∧
        ¬ (l2 - f2 + (l1 - f1)) % 2 ^ 64 < (cutoff : Int) ∧
        ¬ (l2 - f2 < l1 - f1) ∧ 2 ≤ l2 - f2) ∧
      (¬ l1 - f1 < l2 - f2 →
        2 ≤ l1 - f1 ∧
        ∃ (m : Int) (pivot : α) (middle2 : Int),
          m = (l1 - f1).tdiv 2 + (l1 - f1).tmod 2 ∧ 1 ≤ m ∧ m ≤ l1 - f1 - 1 ∧
          deref c1 (f1 + m) = some pivot ∧
          lower_bound comp c2 f2 l2 pivot = some middle2 ∧ f2 ≤ middle2 ∧ middle2 ≤ l2 ∧
          validRange c1 f1 (f1 + m) = true ∧ validRange c2 f2 middle2 = true ∧
          validRange c1 (f1 + m + 1) l1 = true ∧ validRange c2 middle2 l2 = true ∧
          ((f1 + m - f1) + (middle2 - f2)) + ((l1 - (f1 + m + 1)) + (l2 - middle2))
            = (l1 - f1) + (l2 - f2) - 1 ∧
          (f1 + m - f1) + (middle2 - f2) < (l1 - f1) + (l2 - f2) ∧
          (l1 - (f1 + m + 1)) + (l2 - middle2) < (l1 - f1) + (l2 - f2) ∧
          ∀ fuel, strategyBTasking comp cutoff (fuel + 1) c1 f1 l1 c2 f2 l2 result =
            match strategyBTasking comp cutoff fuel c1 f1 (f1 + m) c2 f2 middle2 result with
            | Outcome.done w1 =>
              match strategyBTasking comp cutoff fuel c1 (f1 + m + 1) l1 c2 middle2 l2
                  (result + (f1 + m - f1) + (middle2 - f2) + 1) with
              | Outcome.done w2 =>
                Outcome.done ((result + (f1 + m - f1) + (middle2 - f2), pivot) :: (w1 ++ w2))
              | Outcome.undefined => Outcome.undefined
              | Outcome.timeout => Outcome.timeout
            | Outcome.undefined => Outcome.undefined
            | Outcome.timeout => Outcome.timeout)) ∧
    (∀ fuel : Nat, 2 * ((l1 - f1) + (l2 - f2)) + 2 ≤ (fuel : Int) →
      ∃ ws, strategyBTasking comp cutoff fuel c1 f1 l1 c2 f2 l2 result = Outcome.done ws) := by
  obtain ⟨hf1, hfl1, hl1⟩ := (validRange_iff c1 f1 l1).1 hv1
  obtain ⟨hf2, hfl2, hl2⟩ := (validRange_iff c2 f2 l2).1 hv2
  have hc3 : (3 : Int) ≤ (cutoff : Int) := by exact_mod_cast h3
  refine ⟨fun hcut => ⟨fun hswap => ?_, fun hswap => ?_⟩, fun fuel hfuel => ?_⟩
  · refine ⟨fun fuel => ?_, by omega, by omega, by omega⟩
    rw [strategyBTasking]
    simp only [hcut, if_false, hswap, if_true]
  · have hs1 : 2 ≤ l1 - f1 := by omega
    have hdiv : (l1 - f1).tdiv 2 = (l1 - f1) / 2 := Int.tdiv_eq_ediv (by omega) (by decide)
    have hmod : (l1 - f1).tmod 2 = (l1 - f1) % 2 := Int.tmod_eq_emod (by omega) (by decide)
    obtain ⟨m, hmdef⟩ : ∃ m : Int, m = (l1 - f1).tdiv 2 + (l1 - f1).tmod 2 := ⟨_, rfl⟩
    have hm1 : 1 ≤ m := by rw [hmdef, hdiv, hmod]; omega
    have hm2 : m ≤ l1 - f1 - 1 := by rw [hmdef, hdiv, hmod]; omega
    obtain ⟨pivot, hpivot⟩ := deref_isSome c1 (f1 + m) (by omega) (by omega)
    obtain ⟨k, hk, hklo, hkhi⟩ := lowerBoundLoop_bounds comp c2 pivot (l2 - f2).toNat f2
      (l2 - f2) hf2 (by omega) (by omega) (by omega)
    have hlb : lower_bound comp c2 f2 l2 pivot = some k := by
      unfold lower_bound
      rw [hv2]
      simpa using hk
    refine ⟨hs1, m, pivot, k, hmdef, hm1, hm2, hpivot, hlb, by omega, by omega,
      by rw [validRange_iff]; omega, by rw [validRange_iff]; omega,
      by rw [validRange_iff]; omega, by rw [validRange_iff]; omega,
      by omega, by omega, by omega, fun fuel => ?_⟩
    exact strategyBTasking_split comp cutoff fuel c1 f1 l1 c2 f2 l2 result (f1 + m) k pivot
      hcut hswap (by rw [hmdef, add_assoc]) hpivot hlb
  · obtain ⟨ws, _, hrun, _, _⟩ := strategyBTasking_shape comp cutoff h3 fuel c1 f1 l1 c2 f2 l2
      result hv1 hv2 (Or.inl hfuel)
    exact ⟨ws, hrun⟩

end merging

namespace merging

/-- Instance of `recursion_bounds_cutoff_three`: the call on [1, 3, 5] and
[2, 4, 6] under `<` with cutoff 3. -/
theorem recursion_bounds_cutoff_three_witness :
    ∃ ws, strategyBTasking intLess 3 14 [1, 3, 5] 0 3 [2, 4, 6] 0 3 0 = Outcome.done ws :=
  (recursion_bounds_cutoff_three intLess 3 (by decide) [1, 3, 5] 0 3 [2, 4, 6] 0 3 0
    (by decide) (by decide)).2 14 (by decide)

end merging

namespace exercice1

theorem Count_self_eq_current_run {α : Type} [DecidableEq α] (first : α) (rest : List α) :
    Count first (first :: rest) = Longest_Subset.current_run first rest := by
  rw [current_run_eq, ← Count_eq_takeWhile]
  simp [Count]

theorem Found_eq_one_iff_le_value {α : Type} [DecidableEq α] (n : Nat) (hn : 1 ≤ n) :
    ∀ l : List α, Found_N_Length_Subset n l = 1 ↔ n ≤ Longest_Subset.value l := by
  intro l
  induction l with
  | nil =>
    have h0 : n ≠ 0 := by omega
    simp [Found_N_Length_Subset, Longest_Subset.value, h0]
  | cons x l ih =>
    cases l with
    | nil =>
      unfold Found_N_Length_Subset Longest_Subset.value
      constructor
      · intro h
        by_cases h1 : n = 1
        · omega
        · simp [h1] at h
      · intro h
        have h1 : n = 1 := by omega
        simp [h1]
    | cons y rest =>
      have hv : Longest_Subset.value (x :: y :: rest)
          = if Longest_Subset.current_run x (y :: rest) > Longest_Subset.value (y :: rest)
            then Longest_Subset.current_run x (y :: rest)
            else Longest_Subset.value (y :: rest) := rfl
      have hf : Found_N_Length_Subset n (x :: y :: rest)
          = if Count x (x :: y :: rest) ≥ n then 1
            else Found_N_Length_Subset n (y :: rest) := rfl
      rw [hv, hf, Count_self_eq_current_run]
      by_cases hc : Longest_Subset.current_run x (y :: rest) ≥ n
      · rw [if_pos hc]
        constructor
        · intro _
          split
          · exact hc
          · omega
        · intro _; rfl
      · rw [if_neg hc, ih]
        constructor
        · intro h
          split
          · omega
          · exact h
        · intro h
          split at h
          · omega
          · exact h

/-- C22: for every `n ≥ 1` and every list, `Found_N_Length_Subset<T, n, list...>::Yes`
is 1 if and only if `Longest_Subset<T, list...>::value ≥ n`. -/
theorem Found_agrees_with_Longest {α : Type} [DecidableEq α] (n : Nat) (hn : 1 ≤ n)
    (l : List α) : Found_N_Length_Subset n l = 1 ↔ Longest_Subset.value l ≥ n :=
  Found_eq_one_iff_le_value n hn l

/-- Instance of `Found_agrees_with_Longest`: `n = 3` on 0,1,0,0,1,1,1,0. -/
theorem Found_agrees_with_Longest_witness :
    Found_N_Length_Subset 3 [(0 : Int), 1, 0, 0, 1, 1, 1, 0] = 1
      ↔ Longest_Subset.value [(0 : Int), 1, 0, 0, 1, 1, 1, 0] ≥ 3 :=
  Found_agrees_with_Longest 3 (by decide) [0, 1, 0, 0, 1, 1, 1, 0]

end exercice1
